import Mathlib

/-!
Shallow embedding of the podcast_align timing pipeline
(src/alignment.py and src/postprocess.py) and verification of its
specified properties.

Python floats are modelled exactly as rationals (all constants in the
source are decimal literals), Python `None` as `Option`, and Python
dict-based records as structures.  Fuel parameters replace unbounded
`while` loops; a `none` result marks fuel exhaustion, which the
termination theorems rule out for the actual entry points.
-/

namespace PodcastAlign

/-- Python truthiness for `x or d` on an optional float: both `None`
and `0.0` are falsy and select the default. -/
def pyOrQ (o : Option ℚ) (d : ℚ) : ℚ :=
  match o with
  | none => d
  | some x => if x = 0 then d else x

/-- Python `" ".join(ws)` at the character level. -/
def joinWords : List (List Char) → List Char
  | [] => []
  | [w] => w
  | w :: ws => w ++ ' ' :: joinWords ws

/-- Python `" ".join` on strings. -/
def pyJoin (ws : List String) : String := ⟨joinWords (ws.map String.toList)⟩

/-- Helper for Python `str.split()`: splits a character list on runs of
whitespace, dropping empty pieces; `acc` holds the current word reversed. -/
def wsplitAux : List Char → List Char → List (List Char)
  | [], acc => if acc.isEmpty then [] else [acc.reverse]
  | c :: cs, acc =>
    if c.isWhitespace then
      if acc.isEmpty then wsplitAux cs [] else acc.reverse :: wsplitAux cs []
    else wsplitAux cs (c :: acc)

/-- Python `s.split()` (whitespace split, empties dropped). -/
def pySplitWS (s : String) : List (List Char) := wsplitAux s.toList []

/-- Python `len(s.split())`. -/
def pyWordCount (s : String) : Nat := (pySplitWS s).length

/-- Python `w.strip() == ""`. -/
def pyIsBlank (s : String) : Bool := s.toList.all Char.isWhitespace

/-- Python `list.insert(n, a)`: clamps `n` to the list length. -/
def pyInsert (l : List α) (n : Nat) (a : α) : List α :=
  l.take n ++ a :: l.drop n

/-- Python `min(x :: xs)` / `max(x :: xs)` over a nonempty float list. -/
def pyMinList (x : ℚ) (xs : List ℚ) : ℚ := xs.foldl min x

def pyMaxList (x : ℚ) (xs : List ℚ) : ℚ := xs.foldl max x

/-! ## src/alignment.py -/

/-- One row of the `aligned` output of `align_transcript_to_whisper`
(also the rows consumed by `interpolate_missing_times`). -/
structure AlignmentRecord where
  ref_idx : Nat
  hyp_idx : Option Nat
  start_time : Option ℚ
  end_time : Option ℚ
  score : Option ℚ
  deriving DecidableEq, Repr, Inhabited

/-- All inputs of `align_transcript_to_whisper`.  `ratio` abstracts the
external library call `fuzz.ratio` (rapidfuzz is not part of this
repository); `start_times`/`end_times` are the columns parallel to
`whisper_words`. -/
structure AlignCtx where
  ratio : String → String → ℚ
  transcript_words : List String
  whisper_words : List String
  start_times : List ℚ
  end_times : List ℚ
  seq_len : Nat
  initial_window : Nat
  max_window : Nat
  match_threshold : ℚ

/-- A candidate `(idx, score, len(hyp_seq.split()))` as in line 62-64. -/
abbrev Cand := Nat × ℚ × Nat

/-- Python `max(candidates, key=lambda x: x[1])`: the first candidate of
maximal score (later ones replace only on a strictly larger score). -/
def pyMaxCand (c : Cand) (cs : List Cand) : Cand :=
  cs.foldl (fun best x => if best.2.1 < x.2.1 then x else best) c

/-- The `for idx in range(hyp_idx, window_end)` scan of lines 50-64:
collect every index whose hypothesis shingle scores at or above the
threshold. -/
def scanWindow (ctx : AlignCtx) (ref_seq : String) (lo hi : Nat) : List Cand :=
  (List.range' lo (hi - lo)).filterMap (fun idx =>
    let hyp_seq := pyJoin ((ctx.whisper_words.drop idx).take ctx.seq_len)
    let score := ctx.ratio ref_seq hyp_seq
    if ctx.match_threshold ≤ score then some (idx, score, pyWordCount hyp_seq)
    else none)

/-- The `while True` window-expansion loop of lines 49-69.  Each round
re-scans `range(hyp_idx, window_end)`; the Python candidate list carries
over between rounds but is necessarily empty whenever the loop repeats,
so a fresh scan per round is equivalent.  `none` = fuel exhausted
(ruled out by `expandLoop_isSome`). -/
def expandLoop (ctx : AlignCtx) (ref_seq : String) (lo : Nat) :
    Nat → Nat → Option (List Cand)
  | 0, _ => none
  | fuel + 1, window_end =>
    let len_hyp := ctx.whisper_words.length
    let candidates := scanWindow ctx ref_seq lo window_end
    if candidates ≠ [] ∨ min (lo + ctx.max_window) len_hyp ≤ window_end then
      some candidates
    else expandLoop ctx ref_seq lo fuel (min (window_end + 2) len_hyp)

/-- The unmatched record of lines 110-116. -/
def nullRecord (r : Nat) : AlignmentRecord :=
  { ref_idx := r, hyp_idx := none, start_time := none, end_time := none,
    score := none }

/-- The records emitted on a match, lines 87-95: one per shingle offset,
clipped to both the reference and the hypothesis length. -/
def matchRecords (ctx : AlignCtx) (r : Nat) (best : Cand) :
    List AlignmentRecord :=
  (List.range ctx.seq_len).filterMap (fun i =>
    if r + i < ctx.transcript_words.length ∧
        best.1 + i < ctx.whisper_words.length then
      some { ref_idx := r + i, hyp_idx := some (best.1 + i),
             start_time := some (ctx.start_times.getD (best.1 + i) 0),
             end_time := some (ctx.end_times.getD (best.1 + i) 0),
             score := some best.2.1 }
    else none)

/-- One iteration of the `while ref_idx < len_ref` loop (lines 26-118),
returning the new `(ref_idx, hyp_idx, anchor_found)` and the records
appended this round.  `none` = inner fuel exhausted (never happens). -/
def alignStep (ctx : AlignCtx) (r h : Nat) (anchor : Bool) :
    Option (Nat × Nat × Bool × List AlignmentRecord) :=
  let len_hyp := ctx.whisper_words.length
  let ref_seq := pyJoin ((ctx.transcript_words.drop r).take ctx.seq_len)
  if anchor = false ∧
      ((ctx.whisper_words.drop h).take ctx.initial_window).all pyIsBlank then
    some (r + 1, h, anchor, [])
  else
    match expandLoop ctx ref_seq h (ctx.max_window + 1)
        (min (h + ctx.initial_window) len_hyp) with
    | none => none
    | some [] => some (r + 1, h, anchor, [nullRecord r])
    | some (c :: cs) =>
      let best := pyMaxCand c cs
      some (r + ctx.seq_len, best.1 + best.2.2, true, matchRecords ctx r best)

/-- The outer loop of `align_transcript_to_whisper`.  `none` = fuel
exhausted (for `seq_len = 0` the Python loop indeed never terminates). -/
def alignLoop (ctx : AlignCtx) :
    Nat → Nat → Nat → Bool → List AlignmentRecord →
    Option (List AlignmentRecord)
  | 0, _, _, _, _ => none
  | fuel + 1, r, h, anchor, acc =>
    if r < ctx.transcript_words.length then
      match alignStep ctx r h anchor with
      | none => none
      | some (r2, h2, anchor2, recs) =>
        alignLoop ctx fuel r2 h2 anchor2 (acc ++ recs)
    else some acc

/-- `align_transcript_to_whisper` (src/alignment.py lines 3-120). -/
def align_transcript_to_whisper (ctx : AlignCtx) :
    Option (List AlignmentRecord) :=
  alignLoop ctx (ctx.transcript_words.length + 1) 0 0 false []

/-! ## src/postprocess.py: interpolate_missing_times -/

/-- The `while prev_idx >= 0 and ... is None: prev_idx -= 1` scan of
lines 12-14: first index below `i` whose `start_time` is set. -/
def scanDown (b : List AlignmentRecord) : Nat → Option Nat
  | 0 => none
  | j + 1 =>
    if (b.getD j default).start_time ≠ none then some j else scanDown b j

/-- The `while next_idx < n and ... is None: next_idx += 1` scan of
lines 17-19, with fuel (first non-null index at or above `j`). -/
def scanUp (b : List AlignmentRecord) : Nat → Nat → Option Nat
  | _, 0 => none
  | j, fuel + 1 =>
    if j < b.length then
      if (b.getD j default).start_time ≠ none then some j
      else scanUp b (j + 1) fuel
    else none

/-- Overwrite the two timing fields of record `i` (lines 28-41 assign
`aligned_data[i]['start_time']` / `['end_time']`). -/
def setTimes (b : List AlignmentRecord) (i : Nat) (s e : ℚ) :
    List AlignmentRecord :=
  b.set i { b.getD i default with start_time := some s, end_time := some e }

/-- The body of the `for i in range(n)` loop of
`interpolate_missing_times` (lines 10-41), acting on the current list
state.  The `.getD 0` extractions read `end_time`/`start_time` values
that Python uses directly in arithmetic; they are only reached when the
scans returned an index whose `start_time` is set, and a record with a
set `start_time` but missing `end_time` would make the Python code raise
(outside every stated precondition). -/
def interpOne (b : List AlignmentRecord) (i : Nat) : List AlignmentRecord :=
  if (b.getD i default).start_time = none then
    match scanDown b i, scanUp b (i + 1) (b.length + 1) with
    | some p, some q =>
      let prev_time := ((b.getD p default).end_time).getD 0
      let next_time := ((b.getD q default).start_time).getD 0
      let gap := next_time - prev_time
      let steps : ℚ := (q : ℚ) - (p : ℚ)
      let delta := gap / steps
      setTimes b i (prev_time + delta * ((i : ℚ) - (p : ℚ)))
        (prev_time + delta * ((i : ℚ) - (p : ℚ) + 1))
    | some p, none =>
      let e := ((b.getD p default).end_time).getD 0
      setTimes b i e (e + 1/5)
    | none, some q =>
      let s := ((b.getD q default).start_time).getD 0
      setTimes b i (s - 1/5) s
    | none, none => setTimes b i 0 (1/5)
  else b

/-- `interpolate_missing_times` (src/postprocess.py lines 3-42): the
in-place pass over all indices.  Each iteration sees the updates of the
previous ones, exactly as the Python mutation does. -/
def interpolate_missing_times (a : List AlignmentRecord) :
    List AlignmentRecord :=
  (List.range a.length).foldl interpOne a

/-! ## src/postprocess.py: reinsert_cues_with_interpolation -/

/-- An element of the per-utterance word lists built at lines 65-70 (and
spliced into at lines 127-132). -/
structure ReWord where
  word : String
  start_time : Option ℚ
  end_time : Option ℚ
  pos_in_utt : Nat
  deriving DecidableEq, Repr, Inhabited

/-- The columnar `word_table` (see cleaning.transcript_to_alignment_tables;
only the columns read by reinsert_cues_with_interpolation). -/
structure WordTable where
  utterance_id : List Nat
  speaker_id : List Nat
  word_raw : List String
  start_time : List (Option ℚ)
  end_time : List (Option ℚ)
  pos_in_utt : List Nat
  deriving Repr

/-- The columnar `cue_table`.  `is_inline` is optional because the code
reads it with `cues.get('is_inline', [True]*len(...))`. -/
structure CueTable where
  cue_id : List Nat
  utterance_id : List (Option Nat)
  word_offset : List (Option Nat)
  text : List String
  start_time : List (Option ℚ)
  end_time : List (Option ℚ)
  is_inline : Option (List Bool)
  deriving Repr

/-- The parts of `master_transcript` the function reads:
`word_table`, `cue_table` and the `speakers['to_name']` dict. -/
structure MasterTranscript where
  word_table : WordTable
  cue_table : CueTable
  speakers_to_name : List (Nat × String)
  deriving Repr

/-- A reintegrated utterance (the dicts built at lines 91-99/141-149). -/
structure Utt where
  text : String
  start_time : Option ℚ
  end_time : Option ℚ
  type : String
  words : List ReWord
  speaker_id : Option Nat
  speaker_name : Option String
  deriving DecidableEq, Repr, Inhabited

/-- Key membership in an insertion-ordered association list
(Python `utt_id in utterance_words` / `utt_id not in utterance_words`). -/
def assocHas (l : List (Nat × α)) (k : Nat) : Bool := l.any (fun p => p.1 = k)

/-- Value of a key in an association list (Python `utterance_words[utt_id]`);
the default is never used when `assocHas` holds. -/
def assocGet (l : List (Nat × α)) (k : Nat) (d : α) : α :=
  match l.find? (fun p => p.1 = k) with
  | some p => p.2
  | none => d

/-- Replace the value at key `k` by `f` applied to it. -/
def assocUpd (l : List (Nat × α)) (k : Nat) (f : α → α) : List (Nat × α) :=
  l.map (fun p => if p.1 = k then (p.1, f p.2) else p)

/-- The body of the word-grouping loop (lines 60-70), processing word
`i`. -/
def groupStep (wt : WordTable)
    (st : List (Nat × List ReWord) × List (Nat × Nat)) (i : Nat) :
    List (Nat × List ReWord) × List (Nat × Nat) :=
  let utt_id := wt.utterance_id.getD i 0
  let entry : ReWord :=
    { word := wt.word_raw.getD i "",
      start_time := wt.start_time.getD i none,
      end_time := wt.end_time.getD i none,
      pos_in_utt := wt.pos_in_utt.getD i 0 }
  if assocHas st.1 utt_id then
    (assocUpd st.1 utt_id (fun ws => ws ++ [entry]), st.2)
  else
    (st.1 ++ [(utt_id, [entry])], st.2 ++ [(utt_id, wt.speaker_id.getD i 0)])

/-- Lines 58-70: group words by utterance in first-appearance order,
recording the first word's speaker per utterance. -/
def groupWords (wt : WordTable) :
    List (Nat × List ReWord) × List (Nat × Nat) :=
  (List.range wt.utterance_id.length).foldl (groupStep wt) ([], [])

/-- The `cues.get('is_inline', [True]*len(cues['cue_id']))[cue_idx]`
read of line 79. -/
def isInlineAt (ct : CueTable) (cue_idx : Nat) : Bool :=
  match ct.is_inline with
  | none => true
  | some l => l.getD cue_idx true

/-- Lines 75-132: process one cue.  The state is the utterance-word map
plus the standalone-cue units appended so far.  A cue whose inline
`utterance_id` is not a key of the map is skipped (the `if utt_id in
utterance_words` test has no else branch). -/
def processCue (mt : MasterTranscript) (min_display_time max_display_time : ℚ)
    (st : List (Nat × List ReWord) × List Utt) (cue_idx : Nat) :
    List (Nat × List ReWord) × List Utt :=
  let ct := mt.cue_table
  let utt_id := ct.utterance_id.getD cue_idx none
  let offset := (ct.word_offset.getD cue_idx none).getD 0
  let text := ct.text.getD cue_idx ""
  let is_inline := isInlineAt ct cue_idx
  if is_inline = false ∨ utt_id = none then
    -- standalone cue, lines 82-100
    let start_time := pyOrQ (ct.start_time.getD cue_idx none) 0
    let end_time :=
      pyOrQ (ct.end_time.getD cue_idx none) (start_time + min_display_time)
    let duration := end_time - start_time
    let end_time :=
      if duration < min_display_time then start_time + min_display_time
      else if max_display_time < duration then start_time + max_display_time
      else end_time
    (st.1, st.2 ++ [{ text := text, start_time := some start_time,
                      end_time := some end_time, type := "cue", words := [],
                      speaker_id := none, speaker_name := none }])
  else
    match utt_id with
    | none => st
    | some uid =>
      if assocHas st.1 uid then
        -- inline cue, lines 103-132; the word list is nonempty by
        -- construction, and word timings are set in the real pipeline
        -- (hence the `.getD` extractions).
        let word_list := assocGet st.1 uid []
        let cue_start :=
          if offset = 0 then
            ((word_list.getD 0 default).start_time).getD 0
          else if word_list.length ≤ offset then
            ((word_list.getD (word_list.length - 1) default).end_time).getD 0
          else
            ((word_list.getD (offset - 1) default).end_time).getD 0
        let cue_end :=
          if offset = 0 then cue_start + min_display_time
          else if word_list.length ≤ offset then cue_start + min_display_time
          else ((word_list.getD offset default).start_time).getD 0
        let duration := cue_end - cue_start
        let cue_end :=
          if duration < min_display_time then cue_start + min_display_time
          else if max_display_time < duration then cue_start + max_display_time
          else cue_end
        let entry : ReWord :=
          { word := text, start_time := some cue_start,
            end_time := some cue_end, pos_in_utt := offset }
        (assocUpd st.1 uid (fun ws => pyInsert ws offset entry), st.2)
      else st

/-- Lines 135-149: turn one grouped utterance into a speech unit.  The
`speakers['to_name'][speaker_id]` dict access raises `KeyError` when the
speaker id is unknown; that failure is the `none` result. -/
def speechUtt (mt : MasterTranscript) (us : List (Nat × Nat))
    (p : Nat × List ReWord) : Option Utt :=
  let starts := p.2.filterMap (fun w => w.start_time)
  let ends := p.2.filterMap (fun w => w.end_time)
  let spk := (us.lookup p.1).getD 0
  match mt.speakers_to_name.lookup spk with
  | none => none
  | some name =>
    some { text := pyJoin (p.2.map (fun w => w.word)),
           start_time :=
             match starts with
             | [] => none
             | x :: xs => some (pyMinList x xs),
           end_time :=
             match ends with
             | [] => none
             | x :: xs => some (pyMaxList x xs),
           type := "speech", words := p.2, speaker_id := some spk,
           speaker_name := some name }

/-- The sort key comparison of line 151: ascending `start_time`, with
`None` sorting as `float('inf')`. -/
def startLE (a b : Utt) : Bool :=
  match a.start_time, b.start_time with
  | none, none => true
  | none, some _ => false
  | some _, none => true
  | some x, some y => x ≤ y

/-- Stable insertion used to model Python `list.sort(key=...)` (Timsort
is stable; any stable sort on the same key yields the same list). -/
def sortInsert (x : Utt) : List Utt → List Utt
  | [] => [x]
  | y :: ys => if startLE y x then y :: sortInsert x ys else x :: y :: ys

def pySortByStart (l : List Utt) : List Utt := l.foldr sortInsert []

/-- `reinsert_cues_with_interpolation` (src/postprocess.py lines 45-152).
`none` models an uncaught `KeyError` from the speaker-name lookup. -/
def reinsert_cues_with_interpolation (mt : MasterTranscript)
    (min_display_time max_display_time : ℚ) : Option (List Utt) :=
  let grouped := groupWords mt.word_table
  let afterCues :=
    (List.range mt.cue_table.cue_id.length).foldl
      (processCue mt min_display_time max_display_time) (grouped.1, [])
  match afterCues.1.mapM (speechUtt mt grouped.2) with
  | none => none
  | some speech => some (pySortByStart (afterCues.2 ++ speech))

/-! ## src/postprocess.py: chunking -/

/-- The final subtitle chunk dicts (lines 194-201); `display_text` is
absent (`none`) for chunks produced by the chunker but is read with a
fallback by `normalise_subtitle_timings`. -/
structure SubChunk where
  text : String
  display_text : Option String
  start_time : ℚ
  end_time : ℚ
  speaker_name : Option String
  speaker_id : Option Nat
  type : String
  deriving DecidableEq, Repr, Inhabited

/-- The `while duration < min_duration and end_idx < len(words)` extension
loop of lines 182-187, returning the final `(end_idx, chunk_end_time)`. -/
def extendChunk (ws : List ReWord) (min_duration max_duration cstart : ℚ) :
    Nat → Nat → ℚ → Nat × ℚ
  | 0, e, ce => (e, ce)
  | fuel + 1, end_idx, chunk_end =>
    if chunk_end - cstart < min_duration ∧ end_idx < ws.length then
      let e2 := end_idx + 1
      let ce2 := pyOrQ ((ws.getD (e2 - 1) default).end_time) chunk_end
      if max_duration ≤ ce2 - cstart then (e2, ce2)
      else extendChunk ws min_duration max_duration cstart fuel e2 ce2
    else (end_idx, chunk_end)

/-- The `while start_idx < len(words)` loop of lines 172-203.  With
`max_words = 0` the Python loop can spin forever; the fuel then runs
out (no claim concerns that degenerate parameter). -/
def chunkLoop (u : Utt) (max_words : Nat) (max_duration min_duration : ℚ) :
    Nat → Nat → List SubChunk
  | 0, _ => []
  | fuel + 1, start_idx =>
    let ws := u.words
    if start_idx < ws.length then
      let end_idx0 := min (start_idx + max_words) ws.length
      let cstart := pyOrQ ((ws.getD start_idx default).start_time) 0
      let cend0 :=
        pyOrQ ((ws.getD (end_idx0 - 1) default).end_time)
          (cstart + min_duration)
      let r := extendChunk ws min_duration max_duration cstart ws.length
        end_idx0 cend0
      let cend :=
        if max_duration < r.2 - cstart then cstart + max_duration else r.2
      { text := pyJoin (((ws.drop start_idx).take (r.1 - start_idx)).map
          (fun w => w.word)),
        display_text := none, start_time := cstart, end_time := cend,
        speaker_name := u.speaker_name, speaker_id := u.speaker_id,
        type := u.type } :: chunkLoop u max_words max_duration min_duration fuel r.1
    else []

/-- `chunk_utterance_for_srt` (src/postprocess.py lines 155-205). -/
def chunk_utterance_for_srt (u : Utt) (max_words : Nat)
    (max_duration min_duration : ℚ) : List SubChunk :=
  chunkLoop u max_words max_duration min_duration (u.words.length + 1) 0

/-- `chunk_reintegrated_utterances` (src/postprocess.py lines 208-217). -/
def chunk_reintegrated_utterances (us : List Utt) (max_words : Nat)
    (max_duration min_duration : ℚ) : List SubChunk :=
  us.foldl (fun acc u =>
    acc ++ chunk_utterance_for_srt u max_words max_duration min_duration) []

/-! ## src/postprocess.py: normalise_subtitle_timings -/

/-- The text whose words are counted at line 241:
`sub.get('display_text', sub.get('text', ''))`. -/
def displayedText (sub : SubChunk) : String := sub.display_text.getD sub.text

/-- The minimum duration computed at lines 241-249 from the displayed
text's word count. -/
def minDurationOf (absolute_floor multi_word_floor seconds_per_word : ℚ)
    (sub : SubChunk) : ℚ :=
  let word_count := pyWordCount (displayedText sub)
  let floor :=
    if 1 < word_count then max absolute_floor multi_word_floor
    else absolute_floor
  max floor ((word_count : ℚ) * seconds_per_word)

/-- One iteration of the loop of lines 234-283, appending the normalised
chunk to the accumulator. -/
def normaliseStep (post_padding absolute_floor multi_word_floor
    seconds_per_word : ℚ) (normalised : List SubChunk) (sub : SubChunk) :
    List SubChunk :=
  let start := sub.start_time
  let min_duration :=
    minDurationOf absolute_floor multi_word_floor seconds_per_word sub
  let e1 :=
    if sub.end_time - start < min_duration then start + min_duration
    else sub.end_time
  let padded0 := e1 + post_padding
  let padded :=
    match normalised.getLast? with
    | none => padded0
    | some prev =>
      let same_speaker :=
        prev.speaker_id = sub.speaker_id ∧ sub.type = "speech" ∧
          prev.type = "speech"
      if same_speaker ∧ prev.start_time < padded0 then
        min padded0 prev.start_time
      else padded0
  let e2 := max e1 padded
  normalised ++ [{ sub with start_time := start, end_time := e2 }]

/-- `normalise_subtitle_timings` (src/postprocess.py lines 220-285). -/
def normalise_subtitle_timings (subs : List SubChunk)
    (post_padding absolute_floor multi_word_floor seconds_per_word : ℚ) :
    List SubChunk :=
  subs.foldl
    (normaliseStep post_padding absolute_floor multi_word_floor
      seconds_per_word) []

/-! ## Predicates used in theorem statements -/

/-- Record well-formedness for interpolation inputs: the two timing
fields are null together, and a timed record is non-degenerate.  (The
`getD 0` phrasing keeps the predicate decidable; when both fields are
null the inequality is vacuous.) -/
def WellFormedRecords (a : List AlignmentRecord) : Prop :=
  ∀ r ∈ a, (r.start_time = none ↔ r.end_time = none) ∧
    Option.getD r.start_time 0 ≤ Option.getD r.end_time 0

/-- Timed anchors are ordered: whenever only null records lie strictly
between two timed records, the earlier one ends no later than the later
one starts. -/
def AnchorsMono (a : List AlignmentRecord) : Prop :=
  ∀ q, q < a.length → ∀ p, p < q →
    (a.getD p default).start_time ≠ none →
    (a.getD q default).start_time ≠ none →
    (∀ j, j < q → p < j → (a.getD j default).start_time = none) →
    Option.getD (a.getD p default).end_time 0 ≤
      Option.getD (a.getD q default).start_time 0

/-- The list state of `interpolate_missing_times` after the first `i`
iterations of its `for` loop. -/
def stateAfter (a : List AlignmentRecord) (i : Nat) : List AlignmentRecord :=
  (List.range i).foldl interpOne a

/-- After the first `i` loop iterations, every record before `i` carries
a non-null, non-degenerate time pair. -/
def FilledUpTo (a : List AlignmentRecord) (i : Nat) : Prop :=
  ∀ j, j < i →
    ∃ s e, ((stateAfter a i).getD j default).start_time = some s ∧
      ((stateAfter a i).getD j default).end_time = some e ∧ s ≤ e

/-- After the first `i` iterations, the record just processed ends no
later than the next original anchor starts (whenever one follows with
only null records in between). -/
def BridgeAt (a : List AlignmentRecord) (i : Nat) : Prop :=
  ∀ q, i ≤ q → q < a.length →
    (a.getD q default).start_time ≠ none →
    (∀ m, i ≤ m → m < q → (a.getD m default).start_time = none) →
    0 < i →
    Option.getD ((stateAfter a i).getD (i - 1) default).end_time 0 ≤
      Option.getD (a.getD q default).start_time 0

/-- The chunk start time `words[start_idx]['start_time'] or 0.0` read at
line 177, as a function of the word index. -/
def extractedStart (u : Utt) (i : Nat) : ℚ :=
  pyOrQ ((u.words.getD i default).start_time) 0

/-! ## Concrete inputs used by counterexamples and witnesses -/

/-- A concrete stand-in for the external `fuzz.ratio`: 100 on equal
strings, 0 otherwise (any `ratio` the theorems quantify over includes
it). -/
def eqScore (r h : String) : ℚ := if r = h then 100 else 0

/-- One reference word against an empty hypothesis stream: the
pre-anchor skip consumes the word without emitting any record. -/
def ctxC1cex : AlignCtx :=
  { ratio := eqScore, transcript_words := ["a"], whisper_words := [],
    start_times := [], end_times := [], seq_len := 2, initial_window := 5,
    max_window := 12, match_threshold := 70 }

/-- Blank hypothesis words: the matched shingle at index 2 joins to a
word count of 0, so the hypothesis cursor fails to move past the
emitted records and the next match re-emits indices 2 and 3. -/
def ctxC6cex : AlignCtx :=
  { ratio := eqScore,
    transcript_words := ["x", "y", "", "", "", ""],
    whisper_words := ["x", "y", "", "", ""],
    start_times := [0, 1, 2, 3, 4], end_times := [1, 2, 3, 4, 5],
    seq_len := 2, initial_window := 5, max_window := 12,
    match_threshold := 70 }

/-- A clean three-word exact alignment, used to instantiate the
universally quantified alignment theorems. -/
def ctxW : AlignCtx :=
  { ratio := eqScore, transcript_words := ["hello", "there", "friend"],
    whisper_words := ["hello", "there", "friend"],
    start_times := [0, 1, 2], end_times := [1, 2, 3],
    seq_len := 2, initial_window := 5, max_window := 12,
    match_threshold := 70 }

/-- The output of `align_transcript_to_whisper` on `ctxW`. -/
def ctxWOut : List AlignmentRecord :=
  [ { ref_idx := 0, hyp_idx := some 0, start_time := some 0,
      end_time := some 1, score := some 100 },
    { ref_idx := 1, hyp_idx := some 1, start_time := some 1,
      end_time := some 2, score := some 100 },
    { ref_idx := 2, hyp_idx := some 2, start_time := some 2,
      end_time := some 3, score := some 100 } ]

/-- Anchors at indices 0 and 3 (gap 3 over 3 steps), nulls at 1 and 2:
the claimed even interpolation would give record 2 the pair (2, 3). -/
def ex4 : List AlignmentRecord :=
  [ { ref_idx := 0, hyp_idx := some 0, start_time := some 0,
      end_time := some 0, score := some 100 },
    nullRecord 1, nullRecord 2,
    { ref_idx := 3, hyp_idx := some 3, start_time := some 3,
      end_time := some (7/2), score := some 100 } ]

/-- Anchors out of time order around a null record: interpolation then
runs backwards and produces `start_time > end_time`. -/
def ex8 : List AlignmentRecord :=
  [ { ref_idx := 0, hyp_idx := some 0, start_time := some 0,
      end_time := some 10, score := some 100 },
    nullRecord 1,
    { ref_idx := 2, hyp_idx := some 2, start_time := some 2,
      end_time := some 3, score := some 100 } ]

/-- A well-formed interpolation input with ordered anchors. -/
def ex8w : List AlignmentRecord :=
  [ { ref_idx := 0, hyp_idx := some 0, start_time := some 0,
      end_time := some 1, score := some 100 },
    nullRecord 1,
    { ref_idx := 2, hyp_idx := some 2, start_time := some 3,
      end_time := some 4, score := some 100 } ]

/-- Two consecutive same-speaker speech chunks; the first is shorter
than the duration floor and gets padded past the second one's start. -/
def c2A : SubChunk :=
  { text := "hi", display_text := none, start_time := 0, end_time := 9/10,
    speaker_name := some "A", speaker_id := some 0, type := "speech" }

def c2B : SubChunk :=
  { text := "yo", display_text := none, start_time := 1, end_time := 2,
    speaker_name := some "A", speaker_id := some 0, type := "speech" }

/-- A chunk whose `display_text` (1 word) disagrees with its `text`
(6 words): the code floors the duration from `display_text`. -/
def c9chunk : SubChunk :=
  { text := "a b c d e f", display_text := some "a", start_time := 0,
    end_time := 0, speaker_name := none, speaker_id := some 0,
    type := "speech" }

/-- A master transcript holding exactly one standalone cue and no
words. -/
def mt3 : MasterTranscript :=
  { word_table :=
      { utterance_id := [], speaker_id := [], word_raw := [],
        start_time := [], end_time := [], pos_in_utt := [] },
    cue_table :=
      { cue_id := [0], utterance_id := [none], word_offset := [none],
        text := ["[door slams]"], start_time := [none], end_time := [none],
        is_inline := some [false] },
    speakers_to_name := [] }

/-- A master transcript whose single inline cue references utterance 5,
which does not exist in the word table. -/
def mt5 : MasterTranscript :=
  { word_table :=
      { utterance_id := [0], speaker_id := [0], word_raw := ["hello"],
        start_time := [some 1], end_time := [some 2], pos_in_utt := [0] },
    cue_table :=
      { cue_id := [0], utterance_id := [some 5], word_offset := [some 1],
        text := ["[thud]"], start_time := [none], end_time := [none],
        is_inline := some [true] },
    speakers_to_name := [(0, "Alice")] }

/-- Two time-overlapping utterances of the same speaker, both sorted by
start time; chunking the first (with `max_words = 1`) emits a chunk
starting at 5 before the second utterance's chunk starting at 1. -/
def uttA : Utt :=
  { text := "a b", start_time := some 0, end_time := some 6,
    type := "speech",
    words := [ { word := "a", start_time := some 0, end_time := some 3,
                 pos_in_utt := 0 },
               { word := "b", start_time := some 5, end_time := some 6,
                 pos_in_utt := 1 } ],
    speaker_id := some 0, speaker_name := some "A" }

def uttB : Utt :=
  { text := "c", start_time := some 1, end_time := some 2,
    type := "speech",
    words := [ { word := "c", start_time := some 1, end_time := some 2,
                 pos_in_utt := 0 } ],
    speaker_id := some 0, speaker_name := some "A" }

/-- Replace the text of cue `k` (used to state that a dropped cue's
content is irrelevant to the output). -/
def setCueText (mt : MasterTranscript) (k : Nat) (t : String) :
    MasterTranscript :=
  { mt with cue_table := { mt.cue_table with
      text := mt.cue_table.text.set k t } }

/-- The single chunk `normalise_subtitle_timings` produces from `[c2B]`
with default parameters. -/
def c9wOut : SubChunk :=
  { text := "yo", display_text := none, start_time := 1, end_time := 9/4,
    speaker_name := some "A", speaker_id := some 0, type := "speech" }

/-! ## Counterexamples and failing-input evaluations -/

/-- C1, counterexample: on one reference word and an empty hypothesis
list the pre-anchor skip emits nothing, so the output has 0 records
instead of one per reference word. -/
theorem C1_counterexample :
    align_transcript_to_whisper ctxC1cex = some [] ∧
      ctxC1cex.transcript_words.length = 1 := by
  decide

/-- C2, evaluation at the failing input: with default parameters the
first chunk is padded to end at 5/4 while the next same-speaker speech
chunk starts at 1, so the earlier chunk's padded end exceeds the later
chunk's start. -/
theorem C2_failing_input_eval :
    (normalise_subtitle_timings [c2A, c2B] (1/4) 1 (3/2) (33/100)).map
        (fun c => (c.start_time, c.end_time)) = [(0, 5/4), (1, 2)] ∧
      c2A.speaker_id = c2B.speaker_id ∧ c2A.type = "speech" ∧
      c2B.type = "speech" ∧ (1 : ℚ) < 5/4 := by
  with_unfolding_all decide

/-- C3, evaluation at the failing input: the standalone cue survives
`reinsert_cues_with_interpolation` with a concrete clamped time span,
but chunking (and hence the normalised final output) drops it entirely
because its `words` list is empty. -/
theorem C3_failing_input_eval :
    reinsert_cues_with_interpolation mt3 2 6 =
        some [{ text := "[door slams]", start_time := some 0,
                end_time := some 2, type := "cue", words := [],
                speaker_id := none, speaker_name := none }] ∧
      (reinsert_cues_with_interpolation mt3 2 6).map (fun us =>
        normalise_subtitle_timings (chunk_reintegrated_utterances us 15 6 2)
          (1/4) 1 (3/2) (33/100)) = some [] := by
  with_unfolding_all decide

/-- C4, counterexample: anchors end 0 (index 0) and start 3 (index 3)
with nulls at 1 and 2 give `delta = 1`; even interpolation would assign
record 2 the start time 2, but the code assigns 5/2 because record 2
re-anchors on the freshly filled record 1. -/
theorem C4_counterexample :
    (ex4.getD 1 default).start_time = none ∧
      (ex4.getD 2 default).start_time = none ∧
      (ex4.getD 0 default).end_time = some 0 ∧
      (ex4.getD 3 default).start_time = some 3 ∧
      ((interpolate_missing_times ex4).getD 2 default).start_time =
        some (5/2) ∧
      ((interpolate_missing_times ex4).getD 2 default).start_time ≠
        some 2 := by
  with_unfolding_all decide

/-- C5, counterexample: the inline cue references utterance 5, which is
not in the word table; `reinsert_cues_with_interpolation` neither fails
nor keeps the cue — it returns the speech utterance alone. -/
theorem C5_counterexample :
    reinsert_cues_with_interpolation mt5 2 6 =
      some [{ text := "hello", start_time := some 1, end_time := some 2,
              type := "speech",
              words := [{ word := "hello", start_time := some 1,
                          end_time := some 2, pos_in_utt := 0 }],
              speaker_id := some 0, speaker_name := some "Alice" }] := by
  decide

/-- C6, counterexample: on `ctxC6cex` the matched records carry the
hypothesis indices 0, 1, 2, 3, 2, 3 — the fifth matched record's index
2 is smaller than the fourth's 3. -/
theorem C6_counterexample :
    (align_transcript_to_whisper ctxC6cex).map (fun out =>
        out.filterMap (fun r => r.hyp_idx)) = some [0, 1, 2, 3, 2, 3] ∧
      ¬ List.Chain' (· ≤ ·) [0, 1, 2, 3, 2, 3] :=
  ⟨by with_unfolding_all decide, by simp [List.chain'_cons]⟩

/-- C7, counterexample: the two utterances are sorted by start time,
yet the chunk list starts at times 0, 5, 1 — not ascending. -/
theorem C7_counterexample :
    startLE uttA uttB = true ∧
      (chunk_reintegrated_utterances [uttA, uttB] 1 6 2).map
        (fun c => c.start_time) = [0, 5, 1] ∧
      ¬ List.Chain' (· ≤ ·) ([0, 5, 1] : List ℚ) := by
  refine ⟨by with_unfolding_all decide, ?_, ?_⟩
  · norm_num [chunk_reintegrated_utterances, chunk_utterance_for_srt,
      chunkLoop, extendChunk, pyOrQ, uttA, uttB, pyJoin, joinWords]
  · norm_num [List.chain'_cons]

/-- C8, counterexample: with anchors out of time order the interpolated
record receives `start_time = 6 > end_time = 2`. -/
theorem C8_counterexample :
    ((interpolate_missing_times ex8).getD 1 default).start_time = some 6 ∧
      ((interpolate_missing_times ex8).getD 1 default).end_time = some 2 ∧
      ¬ (6 : ℚ) ≤ 2 := by
  with_unfolding_all decide

/-- C9, counterexample: the chunk's `text` has 6 words (floor
6 · 0.33 = 1.98 s by the claim), but the code counts the 1-word
`display_text` and settles for a duration of 5/4 s. -/
theorem C9_counterexample :
    (normalise_subtitle_timings [c9chunk] (1/4) 1 (3/2) (33/100)).map
        (fun c => c.end_time - c.start_time) = [5/4] ∧
      pyWordCount c9chunk.text = 6 ∧
      ¬ ((6 : ℚ) * (33/100)) ≤ 5/4 := by
  with_unfolding_all decide


/-! ## C9: the duration floor, computed from the displayed text -/

theorem normaliseStep_spec (pp af mf spw : ℚ) (acc : List SubChunk)
    (s : SubChunk) :
    ∃ e2, normaliseStep pp af mf spw acc s =
        acc ++ [{ s with start_time := s.start_time, end_time := e2 }] ∧
      s.start_time + minDurationOf af mf spw s ≤ e2 := by
  refine ⟨_, rfl, ?_⟩
  refine le_trans ?_ (le_max_left _ _)
  split
  · linarith
  · linarith [not_lt.mp (by assumption :
      ¬ s.end_time - s.start_time < minDurationOf af mf spw s)]

theorem normalise_fold_floor (pp af mf spw : ℚ) :
    ∀ (l acc : List SubChunk),
      (∀ c ∈ acc, minDurationOf af mf spw c ≤ c.end_time - c.start_time) →
      ∀ c ∈ l.foldl (normaliseStep pp af mf spw) acc,
        minDurationOf af mf spw c ≤ c.end_time - c.start_time := by
  intro l
  induction l with
  | nil => intro acc hacc c hc; exact hacc c hc
  | cons s t ih =>
    intro acc hacc c hc
    rw [List.foldl_cons] at hc
    refine ih _ ?_ c hc
    obtain ⟨e2, heq, hle⟩ := normaliseStep_spec pp af mf spw acc s
    rw [heq]
    intro d hd
    rcases List.mem_append.mp hd with h | h
    · exact hacc d h
    · rcases List.mem_singleton.mp h with rfl
      have : minDurationOf af mf spw
          { s with start_time := s.start_time, end_time := e2 } =
          minDurationOf af mf spw s := rfl
      rw [this]
      have h2 : ({ s with start_time := s.start_time, end_time := e2 } :
          SubChunk).end_time = e2 := rfl
      have h3 : ({ s with start_time := s.start_time, end_time := e2 } :
          SubChunk).start_time = s.start_time := rfl
      rw [h2, h3]
      linarith

/-- C9 (amended): for every chunk output by `normalise_subtitle_timings`,
`end_time - start_time` is at least
`max(absolute_floor, multi_word_floor if word_count > 1 else
absolute_floor, word_count * seconds_per_word)`, where `word_count` is the
number of whitespace-separated words of the chunk's `display_text` when
that field is present and of its `text` otherwise; the padding step never
reduces the duration below this floor. -/
theorem C9_floor_from_displayed_text
    (subs : List SubChunk) (pp af mf spw : ℚ) :
    ∀ c ∈ normalise_subtitle_timings subs pp af mf spw,
      minDurationOf af mf spw c ≤ c.end_time - c.start_time := by
  intro c hc
  exact normalise_fold_floor pp af mf spw subs [] (by simp) c hc

/-- C9, witness: the floor theorem applied to the concrete one-chunk
input `[c2B]`. -/
theorem C9_floor_witness :
    c9wOut ∈ normalise_subtitle_timings [c2B] (1/4) 1 (3/2) (33/100) ∧
      minDurationOf 1 (3/2) (33/100) c9wOut ≤
        c9wOut.end_time - c9wOut.start_time :=
  ⟨by with_unfolding_all decide,
   C9_floor_from_displayed_text [c2B] (1/4) 1 (3/2) (33/100) c9wOut
     (by with_unfolding_all decide)⟩


/-! ## C7: chunk ordering -/

theorem extendChunk_fst_ge (ws : List ReWord) (mind maxd cs : ℚ) :
    ∀ (fuel e : Nat) (ce : ℚ), e ≤ (extendChunk ws mind maxd cs fuel e ce).1 := by
  intro fuel
  induction fuel with
  | zero => intro e ce; exact le_refl e
  | succ n ih =>
    intro e ce
    simp only [extendChunk]
    split
    · split
      · exact Nat.le_succ e
      · exact le_trans (Nat.le_succ e) (ih (e + 1) _)
    · exact le_refl e

theorem chunkLoop_start_mono (u : Utt) (mw : Nat) (mad mid : ℚ)
    (hmw : 1 ≤ mw)
    (hmono : ∀ j, j < u.words.length → ∀ i, i ≤ j →
      extractedStart u i ≤ extractedStart u j) :
    ∀ (fuel s : Nat),
      (∀ c ∈ chunkLoop u mw mad mid fuel s, ∃ k, s ≤ k ∧
        k < u.words.length ∧ c.start_time = extractedStart u k) ∧
      List.Chain' (· ≤ ·)
        ((chunkLoop u mw mad mid fuel s).map (fun c => c.start_time)) := by
  intro fuel
  induction fuel with
  | zero =>
    intro s
    refine ⟨?_, ?_⟩ <;> simp [chunkLoop]
  | succ n ih =>
    intro s
    by_cases hs : s < u.words.length
    · have hnext : s + 1 ≤ (extendChunk u.words mid mad
          (pyOrQ ((u.words.getD s default).start_time) 0) u.words.length
          (min (s + mw) u.words.length)
          (pyOrQ ((u.words.getD (min (s + mw) u.words.length - 1)
            default).end_time)
            (pyOrQ ((u.words.getD s default).start_time) 0 + mid))).1 := by
        refine le_trans (Nat.le_min.mpr ⟨by omega, by omega⟩)
          (extendChunk_fst_ge _ _ _ _ _ _ _)
      simp only [chunkLoop, if_pos hs]
      constructor
      · intro c hc
        rcases List.mem_cons.mp hc with rfl | hc
        · exact ⟨s, le_refl s, hs, rfl⟩
        · obtain ⟨k, hk1, hk2, hk3⟩ := (ih _).1 c hc
          exact ⟨k, by omega, hk2, hk3⟩
      · rw [List.map_cons]
        refine List.chain'_cons'.mpr ⟨?_, (ih _).2⟩
        intro b hb
        rcases hh : chunkLoop u mw mad mid n (extendChunk u.words mid mad
            (pyOrQ ((u.words.getD s default).start_time) 0) u.words.length
            (min (s + mw) u.words.length)
            (pyOrQ ((u.words.getD (min (s + mw) u.words.length - 1)
              default).end_time)
              (pyOrQ ((u.words.getD s default).start_time) 0 + mid))).1 with
          _ | ⟨c, t⟩
        · rw [hh] at hb; simp at hb
        · rw [hh] at hb
          simp only [List.map_cons, List.head?_cons, Option.mem_def,
            Option.some.injEq] at hb
          obtain ⟨k, hk1, hk2, hk3⟩ := (ih _).1 c (hh ▸ List.mem_cons_self c t)
          subst hb
          rw [hk3]
          exact hmono k hk2 s (by omega)
    · refine ⟨?_, ?_⟩ <;> simp [chunkLoop, if_neg hs]

/-- C7 (amended): chunks produced from a single utterance are emitted in
non-decreasing `start_time` order whenever the utterance's word start
times are non-decreasing; across different utterances the concatenated
output of `chunk_reintegrated_utterances` is NOT sorted in general (see
the counterexample), because time-overlapping utterances interleave. -/
theorem C7_chunks_sorted_within_utterance (u : Utt) (mw : Nat)
    (mad mid : ℚ) (hmw : 1 ≤ mw)
    (hmono : ∀ j, j < u.words.length → ∀ i, i ≤ j →
      extractedStart u i ≤ extractedStart u j) :
    List.Chain' (· ≤ ·)
      ((chunk_utterance_for_srt u mw mad mid).map (fun c => c.start_time)) :=
  (chunkLoop_start_mono u mw mad mid hmw hmono (u.words.length + 1) 0).2

/-- C7, witness: the single-utterance ordering theorem applied to
`uttA` with `max_words = 1`. -/
theorem C7_witness :
    (1 ≤ 1 ∧ ∀ j, j < uttA.words.length → ∀ i, i ≤ j →
        extractedStart uttA i ≤ extractedStart uttA j) ∧
      List.Chain' (· ≤ ·)
        ((chunk_utterance_for_srt uttA 1 6 2).map (fun c => c.start_time)) :=
  ⟨⟨le_refl 1, by with_unfolding_all decide⟩,
   C7_chunks_sorted_within_utterance uttA 1 6 2 (le_refl 1)
     (by with_unfolding_all decide)⟩

/-! ## C5: inline cues with unknown utterance ids -/

theorem assocUpd_keys (l : List (Nat × List ReWord)) (k : Nat)
    (f : List ReWord → List ReWord) :
    (assocUpd l k f).map Prod.fst = l.map Prod.fst := by
  induction l with
  | nil => rfl
  | cons p t ih =>
    simp only [assocUpd, List.map_cons] at *
    split <;> simp_all

theorem processCue_keys (mt : MasterTranscript) (md xd : ℚ)
    (st : List (Nat × List ReWord) × List Utt) (k : Nat) :
    ((processCue mt md xd st k).1).map Prod.fst = st.1.map Prod.fst := by
  simp only [processCue]
  split
  · rfl
  · split
    · rfl
    · split
      · dsimp only
        exact assocUpd_keys st.1 _ _
      · rfl

theorem processCue_skip (mt : MasterTranscript) (md xd : ℚ)
    (st : List (Nat × List ReWord) × List Utt) (k uid : Nat)
    (h1 : mt.cue_table.utterance_id.getD k none = some uid)
    (h2 : isInlineAt mt.cue_table k = true)
    (h3 : assocHas st.1 uid = false) :
    processCue mt md xd st k = st := by
  simp only [processCue, h1, h2, h3, Bool.true_eq_false, false_or,
    reduceCtorEq, if_false, Bool.false_eq_true]

theorem groupStep_keys (wt : WordTable)
    (st : List (Nat × List ReWord) × List (Nat × Nat)) (i : Nat)
    (hi : i < wt.utterance_id.length)
    (hst : ∀ p ∈ st.1, p.1 ∈ wt.utterance_id) :
    ∀ p ∈ (groupStep wt st i).1, p.1 ∈ wt.utterance_id := by
  intro p hp
  simp only [groupStep] at hp
  split at hp
  · dsimp only at hp
    replace hp := List.mem_map_of_mem Prod.fst hp
    rw [assocUpd_keys] at hp
    obtain ⟨q, hq, hq2⟩ := List.mem_map.mp hp
    exact hq2 ▸ hst q hq
  · dsimp only at hp
    rcases List.mem_append.mp hp with h | h
    · exact hst p h
    · rcases List.mem_singleton.mp h with rfl
      exact List.getD_eq_getElem _ _ hi ▸ List.getElem_mem hi

theorem groupWords_keys (wt : WordTable) :
    ∀ p ∈ (groupWords wt).1, p.1 ∈ wt.utterance_id := by
  have main : ∀ (l : List Nat) (st : List (Nat × List ReWord) × List (Nat × Nat)),
      (∀ i ∈ l, i < wt.utterance_id.length) →
      (∀ p ∈ st.1, p.1 ∈ wt.utterance_id) →
      ∀ p ∈ (l.foldl (groupStep wt) st).1, p.1 ∈ wt.utterance_id := by
    intro l
    induction l with
    | nil => intro st hl hst; exact hst
    | cons i t ih =>
      intro st hl hst
      rw [List.foldl_cons]
      exact ih _ (fun j hj => hl j (List.mem_cons_of_mem i hj))
        (groupStep_keys wt st i (hl i (List.mem_cons_self i t)) hst)
  exact main (List.range wt.utterance_id.length) ([], [])
    (fun i hi => List.mem_range.mp hi) (by simp)

/-- C5 (amended): an inline cue whose `utterance_id` is not present in
the word table is silently skipped by `reinsert_cues_with_interpolation`:
no error is raised for it, it is inserted into no utterance and emits no
unit, so the output does not depend on the cue's content at all
(replacing its text leaves the result unchanged). -/
theorem C5_unknown_utterance_cue_ignored (mt : MasterTranscript)
    (md xd : ℚ) (k uid : Nat) (t : String)
    (h1 : mt.cue_table.utterance_id.getD k none = some uid)
    (h2 : isInlineAt mt.cue_table k = true)
    (h3 : uid ∉ mt.word_table.utterance_id) :
    reinsert_cues_with_interpolation (setCueText mt k t) md xd =
      reinsert_cues_with_interpolation mt md xd := by
  have hkeys : ∀ (st : List (Nat × List ReWord) × List Utt),
      (∀ x ∈ st.1.map Prod.fst, x ∈ mt.word_table.utterance_id) →
      assocHas st.1 uid = false := by
    intro st hst
    rw [assocHas, List.any_eq_false]
    intro p hp
    simp only [decide_eq_true_eq]
    intro hpk
    exact h3 (hpk ▸ hst p.1 (List.mem_map_of_mem Prod.fst hp))
  have hfold : ∀ (l : List Nat) (st : List (Nat × List ReWord) × List Utt),
      (∀ x ∈ st.1.map Prod.fst, x ∈ mt.word_table.utterance_id) →
      l.foldl (processCue (setCueText mt k t) md xd) st =
        l.foldl (processCue mt md xd) st := by
    intro l
    induction l with
    | nil => intro st hst; rfl
    | cons j u ih =>
      intro st hst
      rw [List.foldl_cons, List.foldl_cons]
      by_cases hjk : j = k
      · subst hjk
        rw [processCue_skip (setCueText mt j t) md xd st j uid h1 h2
            (hkeys st hst),
          processCue_skip mt md xd st j uid h1 h2 (hkeys st hst)]
        exact ih st hst
      · have htext : (setCueText mt k t).cue_table.text.getD j "" =
            mt.cue_table.text.getD j "" := by
          show (mt.cue_table.text.set k t).getD j "" = _
          simp [List.getD_eq_getElem?_getD,
            List.getElem?_set_ne (fun hh => hjk hh.symm)]
        have hstep : processCue (setCueText mt k t) md xd st j =
            processCue mt md xd st j := by
          simp only [processCue, htext]
          rfl
        rw [hstep]
        refine ih _ ?_
        intro x hx
        rw [processCue_keys] at hx
        exact hst x hx
  unfold reinsert_cues_with_interpolation
  simp only [show (setCueText mt k t).word_table = mt.word_table from rfl,
    show (setCueText mt k t).speakers_to_name = mt.speakers_to_name from rfl,
    show (setCueText mt k t).cue_table.cue_id = mt.cue_table.cue_id from rfl]
  rw [hfold (List.range mt.cue_table.cue_id.length)
    ((groupWords mt.word_table).1, [])
    (by
      intro x hx
      obtain ⟨p, hp, hpx⟩ := List.mem_map.mp hx
      exact hpx ▸ groupWords_keys mt.word_table p hp)]
  have hspeech : mapM (speechUtt (setCueText mt k t) (groupWords mt.word_table).2)
      ((List.range mt.cue_table.cue_id.length).foldl (processCue mt md xd)
        ((groupWords mt.word_table).1, [])).1 =
      mapM (speechUtt mt (groupWords mt.word_table).2)
      ((List.range mt.cue_table.cue_id.length).foldl (processCue mt md xd)
        ((groupWords mt.word_table).1, [])).1 := by
    have : speechUtt (setCueText mt k t) = speechUtt mt := rfl
    rw [this]
  rw [hspeech]

/-- C5, witness: the theorem applied to the concrete transcript `mt5`,
whose inline cue references the nonexistent utterance 5. -/
theorem C5_witness :
    mt5.cue_table.utterance_id.getD 0 none = some 5 ∧
      isInlineAt mt5.cue_table 0 = true ∧ 5 ∉ mt5.word_table.utterance_id ∧
      reinsert_cues_with_interpolation (setCueText mt5 0 "[bang]") 2 6 =
        reinsert_cues_with_interpolation mt5 2 6 :=
  ⟨by decide, by decide, by decide,
   C5_unknown_utterance_cue_ignored mt5 2 6 0 5 "[bang]" (by decide)
     (by decide) (by decide)⟩

/-! ## Interpolation: basic lemmas about the in-place pass -/

theorem setTimes_length (b : List AlignmentRecord) (i : Nat) (s e : ℚ) :
    (setTimes b i s e).length = b.length := by
  simp [setTimes]

theorem setTimes_getD_ne (b : List AlignmentRecord) (i j : Nat) (s e : ℚ)
    (h : j ≠ i) :
    (setTimes b i s e).getD j default = b.getD j default := by
  simp [setTimes, List.getD_eq_getElem?_getD,
    List.getElem?_set_ne (fun hh => h hh.symm)]

theorem setTimes_getD_eq (b : List AlignmentRecord) (i : Nat) (s e : ℚ)
    (h : i < b.length) :
    (setTimes b i s e).getD i default =
      { b.getD i default with start_time := some s, end_time := some e } := by
  simp [setTimes, List.getD_eq_getElem?_getD, List.getElem?_set_self', h,
    List.getElem?_eq_getElem]

theorem interpOne_length (b : List AlignmentRecord) (i : Nat) :
    (interpOne b i).length = b.length := by
  unfold interpOne
  split
  · split <;> simp [setTimes_length]
  · rfl

theorem interpOne_getD_ne (b : List AlignmentRecord) (i j : Nat)
    (h : j ≠ i) :
    (interpOne b i).getD j default = b.getD j default := by
  unfold interpOne
  split
  · split <;> exact setTimes_getD_ne _ _ _ _ _ h
  · rfl

theorem interpOne_start_some (b : List AlignmentRecord) (i : Nat)
    (h : i < b.length) :
    ((interpOne b i).getD i default).start_time ≠ none := by
  unfold interpOne
  split
  · split <;> (rw [setTimes_getD_eq _ _ _ _ h]; simp)
  · assumption

theorem stateAfter_succ (a : List AlignmentRecord) (i : Nat) :
    stateAfter a (i + 1) = interpOne (stateAfter a i) i := by
  simp [stateAfter, List.range_succ]

theorem stateAfter_length (a : List AlignmentRecord) :
    ∀ i, (stateAfter a i).length = a.length := by
  intro i
  induction i with
  | zero => rfl
  | succ n ih => rw [stateAfter_succ, interpOne_length, ih]

theorem stateAfter_untouched (a : List AlignmentRecord) :
    ∀ i j, i ≤ j → (stateAfter a i).getD j default = a.getD j default := by
  intro i
  induction i with
  | zero => intro j _; rfl
  | succ n ih =>
    intro j hj
    rw [stateAfter_succ, interpOne_getD_ne _ _ _ (by omega), ih j (by omega)]

theorem stateAfter_stable (a : List AlignmentRecord) :
    ∀ i j, j < i → (stateAfter a i).getD j default =
      (stateAfter a (j + 1)).getD j default := by
  intro i
  induction i with
  | zero => intro j hj; omega
  | succ n ih =>
    intro j hj
    rcases Nat.lt_or_ge j n with h | h
    · rw [stateAfter_succ, interpOne_getD_ne _ _ _ (by omega), ih j h]
    · have : j = n := by omega
      subst this
      rfl

theorem processed_start_some (a : List AlignmentRecord) (i j : Nat)
    (h1 : j < i) (h2 : j < a.length) :
    ((stateAfter a i).getD j default).start_time ≠ none := by
  rw [stateAfter_stable a i j h1, stateAfter_succ]
  exact interpOne_start_some _ _ (by rw [stateAfter_length]; exact h2)

theorem scanDown_prev (b : List AlignmentRecord) (j : Nat)
    (h : (b.getD j default).start_time ≠ none) :
    scanDown b (j + 1) = some j := by
  show (if (b.getD j default).start_time ≠ none then some j
    else scanDown b j) = some j
  rw [if_pos h]

theorem scanUp_finds (b : List AlignmentRecord) (q : Nat) :
    ∀ (fuel j : Nat), j ≤ q → q < b.length → q < j + fuel →
      (b.getD q default).start_time ≠ none →
      (∀ m, j ≤ m → m < q → (b.getD m default).start_time = none) →
      scanUp b j fuel = some q := by
  intro fuel
  induction fuel with
  | zero => intro j h1 h2 h3; omega
  | succ n ih =>
    intro j h1 h2 h3 h4 h5
    rcases Nat.eq_or_lt_of_le h1 with rfl | hlt
    · show (if j < b.length then
          if (b.getD j default).start_time ≠ none then some j
          else scanUp b (j + 1) n
        else none) = some j
      rw [if_pos h2, if_pos h4]
    · have hnull : (b.getD j default).start_time = none :=
        h5 j (le_refl j) hlt
      have hj : j < b.length := lt_trans hlt h2
      simp only [scanUp, hj, if_true, hnull, ne_eq, not_true_eq_false,
        if_false, not_not]
      exact ih (j + 1) (by omega) h2 (by omega) h4
        (fun m hm1 hm2 => h5 m (by omega) hm2)

theorem scanUp_all_null (b : List AlignmentRecord) :
    ∀ (fuel j : Nat),
      (∀ m, j ≤ m → m < b.length → (b.getD m default).start_time = none) →
      scanUp b j fuel = none := by
  intro fuel
  induction fuel with
  | zero => intro j _; rfl
  | succ n ih =>
    intro j h
    by_cases hj : j < b.length
    · have hnull : (b.getD j default).start_time = none :=
        h j (le_refl j) hj
      simp only [scanUp, hj, if_true, hnull, ne_eq, not_true_eq_false,
        if_false]
      exact ih (j + 1) (fun m hm1 hm2 => h m (by omega) hm2)
    · simp [scanUp, hj]

theorem scanUp_spec_some (b : List AlignmentRecord) :
    ∀ (fuel j q : Nat), scanUp b j fuel = some q →
      j ≤ q ∧ q < b.length ∧ (b.getD q default).start_time ≠ none ∧
        ∀ m, j ≤ m → m < q → (b.getD m default).start_time = none := by
  intro fuel
  induction fuel with
  | zero => intro j q h; cases h
  | succ n ih =>
    intro j q h
    simp only [scanUp] at h
    by_cases hj : j < b.length
    · rw [if_pos hj] at h
      by_cases hnn : (b.getD j default).start_time ≠ none
      · rw [if_pos hnn] at h
        cases h
        exact ⟨le_refl j, hj, hnn, fun m hm1 hm2 => by omega⟩
      · rw [if_neg hnn] at h
        obtain ⟨h1, h2, h3, h4⟩ := ih (j + 1) q h
        refine ⟨by omega, h2, h3, ?_⟩
        intro m hm1 hm2
        rcases Nat.eq_or_lt_of_le hm1 with rfl | hlt
        · exact not_not.mp hnn
        · exact h4 m hlt hm2
    · rw [if_neg hj] at h
      cases h

theorem scanUp_spec_none (b : List AlignmentRecord) :
    ∀ (fuel j : Nat), b.length ≤ j + fuel → scanUp b j fuel = none →
      ∀ m, j ≤ m → m < b.length → (b.getD m default).start_time = none := by
  intro fuel
  induction fuel with
  | zero => intro j hf _ m hm1 hm2; omega
  | succ n ih =>
    intro j hf h m hm1 hm2
    simp only [scanUp] at h
    have hj : j < b.length := by omega
    rw [if_pos hj] at h
    by_cases hnn : (b.getD j default).start_time ≠ none
    · rw [if_pos hnn] at h; cases h
    · rcases Nat.eq_or_lt_of_le hm1 with rfl | hlt
      · exact not_not.mp hnn
      · rw [if_neg hnn] at h
        exact ih (j + 1) (by omega) h m (by omega) hm2

/-! ## C8 and C4: behaviour of interpolate_missing_times -/

theorem getD_mem_self (a : List AlignmentRecord) (i : Nat)
    (h : i < a.length) : a.getD i default ∈ a := by
  rw [List.getD_eq_getElem _ _ h]
  exact List.getElem_mem h

theorem next_anchor_unique (a : List AlignmentRecord) (i q q2 : Nat)
    (hq1 : i ≤ q) (hq3 : (a.getD q default).start_time ≠ none)
    (hq4 : ∀ m, i ≤ m → m < q → (a.getD m default).start_time = none)
    (hp1 : i ≤ q2) (hp3 : (a.getD q2 default).start_time ≠ none)
    (hp4 : ∀ m, i ≤ m → m < q2 → (a.getD m default).start_time = none) :
    q2 = q := by
  rcases Nat.lt_trichotomy q2 q with h | h | h
  · exact absurd (hq4 q2 hp1 h) hp3
  · exact h
  · exact absurd (hp4 q hq1 h) hq3

theorem interp_inv_step (a : List AlignmentRecord)
    (hwf : WellFormedRecords a) (hmono : AnchorsMono a)
    (i : Nat) (hi : i < a.length)
    (hp : FilledUpTo a i) (hb : BridgeAt a i) :
    FilledUpTo a (i + 1) ∧ BridgeAt a (i + 1) := by
  have hlen : (stateAfter a i).length = a.length := stateAfter_length a i
  by_cases hnull : ((stateAfter a i).getD i default).start_time = none
  case neg =>
    -- record i was already timed: the loop body does nothing
    have hskip : interpOne (stateAfter a i) i = stateAfter a i := by
      unfold interpOne
      rw [if_neg hnull]
    have hbi : (stateAfter a i).getD i default = a.getD i default :=
      stateAfter_untouched a i i (le_refl i)
    obtain ⟨hiff, hle⟩ := hwf _ (getD_mem_self a i hi)
    rw [hbi] at hnull
    obtain ⟨s, hs⟩ := Option.ne_none_iff_exists'.mp hnull
    have hen : (a.getD i default).end_time ≠ none := fun hc =>
      hnull (hiff.mpr hc)
    obtain ⟨e, he⟩ := Option.ne_none_iff_exists'.mp hen
    rw [hs, he] at hle
    constructor
    · intro j hj
      rw [stateAfter_succ, hskip]
      rcases Nat.lt_or_ge j i with h | h
      · exact hp j h
      · have : j = i := by omega
        subst this
        exact ⟨s, e, by rw [hbi, hs], by rw [hbi, he], by simpa using hle⟩
    · intro q hq1 hq2 hq3 hq4 _
      rw [stateAfter_succ, hskip, show i + 1 - 1 = i by omega, hbi, he]
      have hkey := hmono q hq2 i (by omega) (by rw [hs]; simp) hq3
        (fun j hj1 hj2 => hq4 j (by omega) hj1)
      rw [he] at hkey
      exact hkey
  case pos =>
    rcases Nat.eq_zero_or_pos i with rfl | hipos
    · -- i = 0 : the state is still the input and no previous index exists
      have hnull0 : (a.getD 0 default).start_time = none := hnull
      rcases hscan : scanUp a 1 (a.length + 1) with _ | q
      · have hall := scanUp_spec_none a (a.length + 1) 1 (by omega) hscan
        have hstep : interpOne a 0 = setTimes a 0 0 (1/5) := by
          unfold interpOne
          rw [if_pos hnull0, show scanDown a 0 = none from rfl, hscan]
        constructor
        · intro j hj
          have : j = 0 := by omega
          subst this
          rw [stateAfter_succ, show stateAfter a 0 = a from rfl, hstep,
            setTimes_getD_eq a 0 _ _ (by omega)]
          exact ⟨0, 1/5, rfl, rfl, by norm_num⟩
        · intro q hq1 hq2 hq3 hq4 _
          exact absurd (hall q hq1 hq2) hq3
      · obtain ⟨hq1, hq2, hq3, hq4⟩ := scanUp_spec_some a _ _ _ hscan
        have hstep : interpOne a 0 = setTimes a 0
            (((a.getD q default).start_time).getD 0 - 1/5)
            (((a.getD q default).start_time).getD 0) := by
          unfold interpOne
          rw [if_pos hnull0, show scanDown a 0 = none from rfl, hscan]
        constructor
        · intro j hj
          have : j = 0 := by omega
          subst this
          rw [stateAfter_succ, show stateAfter a 0 = a from rfl, hstep,
            setTimes_getD_eq a 0 _ _ (by omega)]
          exact ⟨_, _, rfl, rfl, by linarith⟩
        · intro q2 hq21 hq22 hq23 hq24 _
          have hq2eq : q2 = q := next_anchor_unique a 1 q q2 hq1 hq3 hq4
            hq21 hq23 hq24
          subst hq2eq
          rw [stateAfter_succ, show stateAfter a 0 = a from rfl, hstep,
            show (1 : Nat) - 1 = 0 from rfl,
            setTimes_getD_eq a 0 _ _ (by omega)]
          exact le_refl _
    · -- i ≥ 1 : the previous valid index is always i - 1
      obtain ⟨i2, rfl⟩ : ∃ i2, i = i2 + 1 := ⟨i - 1, by omega⟩
      have hprev : ((stateAfter a (i2 + 1)).getD i2 default).start_time ≠
          none := processed_start_some a (i2 + 1) i2 (by omega) (by omega)
      have hsd : scanDown (stateAfter a (i2 + 1)) (i2 + 1) = some i2 :=
        scanDown_prev _ _ hprev
      obtain ⟨s0, e0, hs0, he0, hse0⟩ := hp i2 (by omega)
      have hnull_a : (a.getD (i2 + 1) default).start_time = none := by
        rw [← stateAfter_untouched a (i2 + 1) (i2 + 1) (le_refl _)]
        exact hnull
      have hE : ((stateAfter a (i2 + 1)).getD i2
          default).end_time.getD 0 = e0 := by rw [he0]; rfl
      rcases hscan : scanUp (stateAfter a (i2 + 1)) (i2 + 1 + 1)
          ((stateAfter a (i2 + 1)).length + 1) with _ | q
      · have hall := scanUp_spec_none _ _ _ (by omega) hscan
        have hstep : interpOne (stateAfter a (i2 + 1)) (i2 + 1) =
            setTimes (stateAfter a (i2 + 1)) (i2 + 1)
              (((stateAfter a (i2 + 1)).getD i2 default).end_time.getD 0)
              (((stateAfter a (i2 + 1)).getD i2 default).end_time.getD 0 +
                1/5) := by
          unfold interpOne
          rw [if_pos hnull, hsd, hscan]
        constructor
        · intro j hj
          rw [stateAfter_succ, hstep]
          rcases Nat.lt_or_ge j (i2 + 1) with h | h
          · rw [setTimes_getD_ne _ _ _ _ _ (by omega)]
            exact hp j h
          · have : j = i2 + 1 := by omega
            subst this
            rw [setTimes_getD_eq _ _ _ _ (by omega)]
            exact ⟨_, _, rfl, rfl, by linarith⟩
        · intro q hq1 hq2 hq3 hq4 _
          refine absurd ?_ hq3
          rw [← stateAfter_untouched a (i2 + 1) q (by omega)]
          exact hall q hq1 (by omega)
      · obtain ⟨hq1, hq2, hq3, hq4⟩ := scanUp_spec_some _ _ _ _ hscan
        have hbq : (stateAfter a (i2 + 1)).getD q default =
            a.getD q default := stateAfter_untouched a (i2 + 1) q (by omega)
        have haq3 : (a.getD q default).start_time ≠ none := by
          rw [← hbq]; exact hq3
        have haq4 : ∀ m, i2 + 1 ≤ m → m < q →
            (a.getD m default).start_time = none := by
          intro m hm1 hm2
          rcases Nat.eq_or_lt_of_le hm1 with rfl | h
          · exact hnull_a
          · rw [← stateAfter_untouched a (i2 + 1) m (by omega)]
            exact hq4 m (by omega) hm2
        have hbridge := hb q (by omega) (by omega) haq3 haq4 (by omega)
        rw [show i2 + 1 - 1 = i2 from rfl, hE] at hbridge
        have hstep : interpOne (stateAfter a (i2 + 1)) (i2 + 1) =
            setTimes (stateAfter a (i2 + 1)) (i2 + 1)
              (((stateAfter a (i2 + 1)).getD i2 default).end_time.getD 0 +
                (((stateAfter a (i2 + 1)).getD q
                      default).start_time.getD 0 -
                  ((stateAfter a (i2 + 1)).getD i2
                      default).end_time.getD 0) /
                  ((q : ℚ) - (i2 : ℚ)) *
                  (((i2 + 1 : Nat) : ℚ) - (i2 : ℚ)))
              (((stateAfter a (i2 + 1)).getD i2 default).end_time.getD 0 +
                (((stateAfter a (i2 + 1)).getD q
                      default).start_time.getD 0 -
                  ((stateAfter a (i2 + 1)).getD i2
                      default).end_time.getD 0) /
                  ((q : ℚ) - (i2 : ℚ)) *
                  (((i2 + 1 : Nat) : ℚ) - (i2 : ℚ) + 1)) := by
          unfold interpOne
          rw [if_pos hnull, hsd, hscan]
        have hES : e0 ≤ ((stateAfter a (i2 + 1)).getD q
            default).start_time.getD 0 := by
          rw [hbq]; exact hbridge
        have hcast1 : (((i2 + 1 : Nat) : ℚ) - (i2 : ℚ)) = 1 := by
          push_cast; ring
        have hstq : (2 : ℚ) ≤ (q : ℚ) - (i2 : ℚ) := by
          have hcq : ((i2 + 2 : Nat) : ℚ) ≤ (q : ℚ) :=
            Nat.cast_le.mpr (by omega)
          push_cast at hcq ⊢
          linarith
        have hstpos : (0 : ℚ) < (q : ℚ) - (i2 : ℚ) := by linarith
        have hdelta0 : 0 ≤ (((stateAfter a (i2 + 1)).getD q
              default).start_time.getD 0 -
            ((stateAfter a (i2 + 1)).getD i2 default).end_time.getD 0) /
            ((q : ℚ) - (i2 : ℚ)) := by
          rw [hE]
          exact div_nonneg (by linarith) (le_of_lt hstpos)
        constructor
        · intro j hj
          rw [stateAfter_succ, hstep]
          rcases Nat.lt_or_ge j (i2 + 1) with h | h
          · rw [setTimes_getD_ne _ _ _ _ _ (by omega)]
            exact hp j h
          · have : j = i2 + 1 := by omega
            subst this
            rw [setTimes_getD_eq _ _ _ _ (by omega)]
            refine ⟨_, _, rfl, rfl, ?_⟩
            rw [hcast1]
            nlinarith [hdelta0]
        · intro q2 hq21 hq22 hq23 hq24 _
          have hq2eq : q = q2 := (next_anchor_unique a (i2 + 1) q q2
            (by omega) haq3 haq4 (by omega) hq23
            (fun m hm1 hm2 => by
              rcases Nat.eq_or_lt_of_le hm1 with rfl | hlt2
              · exact hnull_a
              · exact hq24 m (by omega) hm2)).symm
          subst hq2eq
          rw [stateAfter_succ, hstep, show i2 + 1 + 1 - 1 = i2 + 1 by omega,
            setTimes_getD_eq _ _ _ _ (by omega)]
          have hdmul : (((stateAfter a (i2 + 1)).getD q
                default).start_time.getD 0 -
              ((stateAfter a (i2 + 1)).getD i2 default).end_time.getD 0) /
              ((q : ℚ) - (i2 : ℚ)) * ((q : ℚ) - (i2 : ℚ)) =
              (((stateAfter a (i2 + 1)).getD q
                default).start_time.getD 0 -
              ((stateAfter a (i2 + 1)).getD i2 default).end_time.getD 0) :=
            div_mul_cancel₀ _ (ne_of_gt hstpos)
          show ((stateAfter a (i2 + 1)).getD i2 default).end_time.getD 0 +
            (((stateAfter a (i2 + 1)).getD q default).start_time.getD 0 -
              ((stateAfter a (i2 + 1)).getD i2 default).end_time.getD 0) /
              ((q : ℚ) - (i2 : ℚ)) *
              (((i2 + 1 : Nat) : ℚ) - (i2 : ℚ) + 1) ≤
            Option.getD (a.getD q default).start_time 0
          rw [hcast1, ← hbq]
          nlinarith [hdelta0, hstq, hdmul]

theorem interp_inv (a : List AlignmentRecord)
    (hwf : WellFormedRecords a) (hmono : AnchorsMono a) :
    ∀ i, i ≤ a.length → FilledUpTo a i ∧ BridgeAt a i := by
  intro i
  induction i with
  | zero =>
    intro _
    exact ⟨fun j hj => absurd hj (by omega), fun q _ _ _ _ h => by omega⟩
  | succ n ih =>
    intro h
    obtain ⟨h1, h2⟩ := ih (by omega)
    exact interp_inv_step a hwf hmono n (by omega) h1 h2

/-- C8 (amended): given well-formed records (the two timing fields null
together, timed records non-degenerate) whose timed anchors are in time
order, `interpolate_missing_times` returns a list of the same length in
which every record's `start_time` and `end_time` are non-null with
`start_time ≤ end_time`.  Without those preconditions the conclusion
fails (see the counterexample with out-of-order anchors). -/
theorem C8_interpolation_fills_all_times (a : List AlignmentRecord)
    (hwf : WellFormedRecords a) (hmono : AnchorsMono a) :
    (interpolate_missing_times a).length = a.length ∧
      ∀ r ∈ interpolate_missing_times a,
        ∃ s e, r.start_time = some s ∧ r.end_time = some e ∧ s ≤ e := by
  have hfill : FilledUpTo a a.length :=
    (interp_inv a hwf hmono a.length (le_refl _)).1
  have hlen : (interpolate_missing_times a).length = a.length :=
    stateAfter_length a a.length
  refine ⟨hlen, ?_⟩
  intro r hr
  obtain ⟨j, hj, hrj⟩ := List.getElem_of_mem hr
  have hDj : (interpolate_missing_times a).getD j default = r := by
    rw [List.getD_eq_getElem _ _ hj, hrj]
  obtain ⟨s, e, hs, he, hse⟩ := hfill j (by omega)
  have : (stateAfter a a.length).getD j default = r := hDj
  rw [this] at hs he
  exact ⟨s, e, hs, he, hse⟩

set_option synthInstance.maxSize 2000 in
set_option synthInstance.maxHeartbeats 1000000 in
/-- C8, witness: the amended theorem applied to a concrete well-formed
three-record list with one null record between ordered anchors. -/
theorem C8_witness :
    (WellFormedRecords ex8w ∧ AnchorsMono ex8w) ∧
      ((interpolate_missing_times ex8w).length = ex8w.length ∧
        ∀ r ∈ interpolate_missing_times ex8w,
          ∃ s e, r.start_time = some s ∧ r.end_time = some e ∧ s ≤ e) :=
  ⟨⟨by unfold WellFormedRecords; with_unfolding_all decide,
    by unfold AnchorsMono; with_unfolding_all decide⟩,
   C8_interpolation_fills_all_times ex8w
     (by unfold WellFormedRecords; with_unfolding_all decide)
     (by unfold AnchorsMono; with_unfolding_all decide)⟩

/-- C4 (amended): inside a null run the previous anchor re-read by the
code is always the immediately preceding, freshly filled record, because
the pass mutates in place.  For a null record at `i ≥ 1` whose next
originally-timed record sits at `q` with start time `s`, the code
assigns `start = e + delta` and `end = e + 2 * delta` where `e` is
record `i - 1`'s (possibly just-interpolated) end time and
`delta = (s - e) / (q - i + 1)` — a cascaded scheme that agrees with the
claimed even division only for runs of length 1. -/
theorem C4_cascaded_interpolation (a : List AlignmentRecord)
    (i q : Nat) (s e : ℚ)
    (h1 : 1 ≤ i) (h2 : i < q) (h3 : q < a.length)
    (h4 : ∀ j, j < q → i ≤ j → (a.getD j default).start_time = none)
    (h5 : (a.getD q default).start_time = some s)
    (h6 : ((interpolate_missing_times a).getD (i - 1) default).end_time =
      some e) :
    ((interpolate_missing_times a).getD i default).start_time =
        some (e + (s - e) / ((q : ℚ) - (i : ℚ) + 1)) ∧
      ((interpolate_missing_times a).getD i default).end_time =
        some (e + (s - e) / ((q : ℚ) - (i : ℚ) + 1) * 2) := by
  obtain ⟨i2, rfl⟩ : ∃ i2, i = i2 + 1 := ⟨i - 1, by omega⟩
  have hlen : (stateAfter a (i2 + 1)).length = a.length :=
    stateAfter_length a (i2 + 1)
  -- record i - 1 is stable from iteration i on
  have hstab_prev : (interpolate_missing_times a).getD i2 default =
      (stateAfter a (i2 + 1)).getD i2 default :=
    stateAfter_stable a a.length i2 (by omega)
  rw [show i2 + 1 - 1 = i2 from rfl, hstab_prev] at h6
  have hprev_start : ((stateAfter a (i2 + 1)).getD i2
      default).start_time ≠ none :=
    processed_start_some a (i2 + 1) i2 (by omega) (by omega)
  have hsd : scanDown (stateAfter a (i2 + 1)) (i2 + 1) = some i2 :=
    scanDown_prev _ _ hprev_start
  have hnull : ((stateAfter a (i2 + 1)).getD (i2 + 1)
      default).start_time = none := by
    rw [stateAfter_untouched a (i2 + 1) (i2 + 1) (le_refl _)]
    exact h4 (i2 + 1) h2 (le_refl _)
  have hbq : (stateAfter a (i2 + 1)).getD q default = a.getD q default :=
    stateAfter_untouched a (i2 + 1) q (by omega)
  have hscan : scanUp (stateAfter a (i2 + 1)) (i2 + 1 + 1)
      ((stateAfter a (i2 + 1)).length + 1) = some q := by
    refine scanUp_finds _ q _ _ (by omega) (by omega) (by omega) ?_ ?_
    · rw [hbq, h5]; simp
    · intro m hm1 hm2
      rw [stateAfter_untouched a (i2 + 1) m (by omega)]
      exact h4 m hm2 (by omega)
  have hstab_i : (interpolate_missing_times a).getD (i2 + 1) default =
      (stateAfter a (i2 + 1 + 1)).getD (i2 + 1) default :=
    stateAfter_stable a a.length (i2 + 1) (by omega)
  have hstep : (stateAfter a (i2 + 1 + 1)).getD (i2 + 1) default =
      { (stateAfter a (i2 + 1)).getD (i2 + 1) default with
        start_time := some
          (((stateAfter a (i2 + 1)).getD i2 default).end_time.getD 0 +
            (((stateAfter a (i2 + 1)).getD q default).start_time.getD 0 -
              ((stateAfter a (i2 + 1)).getD i2 default).end_time.getD 0) /
              ((q : ℚ) - (i2 : ℚ)) * (((i2 + 1 : Nat) : ℚ) - (i2 : ℚ))),
        end_time := some
          (((stateAfter a (i2 + 1)).getD i2 default).end_time.getD 0 +
            (((stateAfter a (i2 + 1)).getD q default).start_time.getD 0 -
              ((stateAfter a (i2 + 1)).getD i2 default).end_time.getD 0) /
              ((q : ℚ) - (i2 : ℚ)) *
              (((i2 + 1 : Nat) : ℚ) - (i2 : ℚ) + 1)) } := by
    rw [stateAfter_succ]
    have hbody : interpOne (stateAfter a (i2 + 1)) (i2 + 1) =
        setTimes (stateAfter a (i2 + 1)) (i2 + 1)
          (((stateAfter a (i2 + 1)).getD i2 default).end_time.getD 0 +
            (((stateAfter a (i2 + 1)).getD q default).start_time.getD 0 -
              ((stateAfter a (i2 + 1)).getD i2 default).end_time.getD 0) /
              ((q : ℚ) - (i2 : ℚ)) * (((i2 + 1 : Nat) : ℚ) - (i2 : ℚ)))
          (((stateAfter a (i2 + 1)).getD i2 default).end_time.getD 0 +
            (((stateAfter a (i2 + 1)).getD q default).start_time.getD 0 -
              ((stateAfter a (i2 + 1)).getD i2 default).end_time.getD 0) /
              ((q : ℚ) - (i2 : ℚ)) *
              (((i2 + 1 : Nat) : ℚ) - (i2 : ℚ) + 1)) := by
      unfold interpOne
      rw [if_pos hnull, hsd, hscan]
    rw [hbody, setTimes_getD_eq _ _ _ _ (by omega)]
  have hvalE : ((stateAfter a (i2 + 1)).getD i2
      default).end_time.getD 0 = e := by rw [h6]; rfl
  have hvalS : ((stateAfter a (i2 + 1)).getD q
      default).start_time.getD 0 = s := by rw [hbq, h5]; rfl
  have hcast1 : (((i2 + 1 : Nat) : ℚ) - (i2 : ℚ)) = 1 := by
    push_cast; ring
  have hcast2 : ((q : ℚ) - (i2 : ℚ)) =
      (q : ℚ) - ((i2 + 1 : Nat) : ℚ) + 1 := by push_cast; ring
  rw [hstab_i, hstep]
  constructor
  · show some _ = some _
    rw [hvalE, hvalS, hcast1, hcast2, mul_one]
  · show some _ = some _
    rw [hvalE, hvalS, hcast1, hcast2]
    congr 1
    ring
/-- C4, witness: at `ex4` the cascaded formula gives record 1 (the first
of the null run) the pair (1, 2); `delta = 1`. -/
theorem C4_witness :
    (1 ≤ 1 ∧ 1 < 3 ∧ 3 < ex4.length ∧
      (∀ j, j < 3 → 1 ≤ j → (ex4.getD j default).start_time = none) ∧
      (ex4.getD 3 default).start_time = some 3 ∧
      ((interpolate_missing_times ex4).getD 0 default).end_time = some 0) ∧
      (((interpolate_missing_times ex4).getD 1 default).start_time =
          some (0 + (3 - 0) / ((3 : ℚ) - (1 : ℚ) + 1)) ∧
        ((interpolate_missing_times ex4).getD 1 default).end_time =
          some (0 + (3 - 0) / ((3 : ℚ) - (1 : ℚ) + 1) * 2)) := by
  refine ⟨⟨le_refl 1, by omega, by with_unfolding_all decide,
    by with_unfolding_all decide, by with_unfolding_all decide,
    by with_unfolding_all decide⟩, ?_⟩
  have := C4_cascaded_interpolation ex4 1 3 3 0 (le_refl 1) (by omega)
    (by with_unfolding_all decide) (by with_unfolding_all decide)
    (by with_unfolding_all decide) (by with_unfolding_all decide)
  exact_mod_cast this

/-! ## C1, C6, C10: the aligner -/

theorem wsplitAux_append (w cs acc : List Char)
    (hw : ∀ ch ∈ w, ch.isWhitespace = false) :
    wsplitAux (w ++ cs) acc = wsplitAux cs (w.reverse ++ acc) := by
  induction w generalizing acc with
  | nil => simp [wsplitAux]
  | cons c w ih =>
    have hc : c.isWhitespace = false := hw c (List.mem_cons_self c w)
    simp only [List.cons_append, wsplitAux, hc, Bool.false_eq_true,
      if_false, List.reverse_cons, List.append_assoc, List.singleton_append]
    exact ih (c :: acc) (fun ch hch => hw ch (List.mem_cons_of_mem c hch))

theorem wsplitAux_joinWords (l : List (List Char))
    (hl : ∀ w ∈ l, w ≠ [] ∧ ∀ ch ∈ w, ch.isWhitespace = false) :
    wsplitAux (joinWords l) [] = l := by
  induction l with
  | nil => rfl
  | cons w t ih =>
    obtain ⟨hw1, hw2⟩ := hl w (List.mem_cons_self w t)
    cases t with
    | nil =>
      show wsplitAux (joinWords [w]) [] = [w]
      rw [show joinWords [w] = w from rfl,
        show w = w ++ ([] : List Char) by simp, wsplitAux_append _ _ _
          (by simpa using hw2)]
      simp [wsplitAux, hw1]
    | cons v t2 =>
      show wsplitAux (w ++ ' ' :: joinWords (v :: t2)) [] = w :: v :: t2
      rw [wsplitAux_append _ _ _ hw2]
      have hws : (' ').isWhitespace = true := rfl
      simp only [wsplitAux, hws, if_true, List.append_nil]
      rw [if_neg (by simpa using hw1)]
      rw [ih (fun x hx => hl x (List.mem_cons_of_mem w hx))]
      simp

theorem pyWordCount_pyJoin (ws : List String)
    (h : ∀ w ∈ ws, w.toList ≠ [] ∧ ∀ ch ∈ w.toList, ch.isWhitespace = false) :
    pyWordCount (pyJoin ws) = ws.length := by
  have : pySplitWS (pyJoin ws) = ws.map String.toList := by
    show wsplitAux (joinWords (ws.map String.toList)) [] = ws.map String.toList
    refine wsplitAux_joinWords _ ?_
    intro w hw
    obtain ⟨x, hx, rfl⟩ := List.mem_map.mp hw
    exact h x hx
  rw [pyWordCount, this, List.length_map]

theorem pyMaxCand_mem : ∀ (cs : List Cand) (b : Cand),
    pyMaxCand b cs ∈ b :: cs := by
  intro cs
  induction cs with
  | nil => intro b; exact List.mem_cons_self b []
  | cons x t ih =>
    intro b
    show pyMaxCand (if b.2.1 < x.2.1 then x else b) t ∈ b :: x :: t
    rcases List.mem_cons.mp (ih (if b.2.1 < x.2.1 then x else b)) with h | h
    · rw [h]
      split
      · exact List.mem_cons_of_mem b (List.mem_cons_self x t)
      · exact List.mem_cons_self b (x :: t)
    · exact List.mem_cons_of_mem b (List.mem_cons_of_mem x h)

theorem scanWindow_mem (ctx : AlignCtx) (ref_seq : String) (lo hi : Nat)
    (c : Cand) (hc : c ∈ scanWindow ctx ref_seq lo hi) :
    lo ≤ c.1 ∧ c.1 < hi ∧
      c.2.2 = pyWordCount (pyJoin ((ctx.whisper_words.drop c.1).take
        ctx.seq_len)) := by
  obtain ⟨idx, hidx, heq⟩ := List.mem_filterMap.mp hc
  obtain ⟨k, hk, hkm⟩ := List.mem_range'.mp hidx
  dsimp only at heq
  split at heq
  · cases heq
    exact ⟨by omega, by omega, rfl⟩
  · cases heq

theorem expandLoop_mem (ctx : AlignCtx) (ref_seq : String) (lo : Nat) :
    ∀ (fuel we : Nat), we ≤ ctx.whisper_words.length →
      ∀ l, expandLoop ctx ref_seq lo fuel we = some l →
      ∀ c ∈ l, lo ≤ c.1 ∧ c.1 < ctx.whisper_words.length ∧
        c.2.2 = pyWordCount (pyJoin ((ctx.whisper_words.drop c.1).take
          ctx.seq_len)) := by
  intro fuel
  induction fuel with
  | zero => intro we hwe l hl; cases hl
  | succ n ih =>
    intro we hwe l hl
    simp only [expandLoop] at hl
    split at hl
    · cases hl
      intro c hc
      obtain ⟨h1, h2, h3⟩ := scanWindow_mem ctx ref_seq lo we c hc
      exact ⟨h1, by omega, h3⟩
    · exact ih _ (by omega) l hl

theorem expandLoop_isSome (ctx : AlignCtx) (ref_seq : String) (lo : Nat) :
    ∀ (fuel we : Nat),
      min (lo + ctx.max_window) ctx.whisper_words.length - we < fuel →
      (expandLoop ctx ref_seq lo fuel we).isSome := by
  intro fuel
  induction fuel with
  | zero => intro we h; omega
  | succ n ih
 =>
    intro we h
    simp only [expandLoop]
    split
    · rfl
    · rename_i hcond
      push_neg at hcond
      refine ih _ ?_
      have hlt : we < min (lo + ctx.max_window) ctx.whisper_words.length :=
        by omega
      have : we + 1 ≤ ctx.whisper_words.length := by omega
      omega

theorem matchRecords_mem (ctx : AlignCtx) (r : Nat) (best : Cand)
    (x : AlignmentRecord) (hx : x ∈ matchRecords ctx r best) :
    ∃ i, i < ctx.seq_len ∧ r + i < ctx.transcript_words.length ∧
      best.1 + i < ctx.whisper_words.length ∧ x.ref_idx = r + i ∧
      x.hyp_idx = some (best.1 + i) := by
  obtain ⟨i, hi, heq⟩ := List.mem_filterMap.mp hx
  split at heq
  · cases heq
    rename_i hcond
    exact ⟨i, List.mem_range.mp hi, hcond.1, hcond.2, rfl, rfl⟩
  · cases heq

theorem matchRecords_pairwise_ref (ctx : AlignCtx) (r : Nat) (best : Cand) :
    List.Pairwise (fun x y => x.ref_idx < y.ref_idx)
      (matchRecords ctx r best) := by
  refine List.pairwise_filterMap.mpr ?_
  refine (List.pairwise_lt_range ctx.seq_len).imp ?_
  intro i j hij
  intro b hb b2 hb2
  rw [Option.mem_def] at hb hb2
  split at hb
  · cases hb
    split at hb2
    · cases hb2
      show r + i < r + j
      omega
    · cases hb2
  · cases hb

theorem matchRecords_pairwise_hyp (ctx : AlignCtx) (r : Nat) (best : Cand) :
    List.Pairwise (· < ·)
      ((matchRecords ctx r best).filterMap (fun x => x.hyp_idx)) := by
  rw [matchRecords, List.filterMap_filterMap]
  refine List.pairwise_filterMap.mpr ?_
  refine (List.pairwise_lt_range ctx.seq_len).imp ?_
  intro i j hij
  intro b hb b2 hb2
  rw [Option.mem_def] at hb hb2
  split at hb
  · simp only [Option.some_bind] at hb
    cases hb
    split at hb2
    · simp only [Option.some_bind] at hb2
      cases hb2
      show best.1 + i < best.1 + j
      omega
    · cases hb2
  · cases hb

theorem alignStep_spec (ctx : AlignCtx) (r h : Nat) (anchor : Bool)
    (r2 h2 : Nat) (anchor2 : Bool) (recs : List AlignmentRecord)
    (hstep : alignStep ctx r h anchor = some (r2, h2, anchor2, recs)) :
    r ≤ r2 ∧ (1 ≤ ctx.seq_len → r + 1 ≤ r2) ∧ h ≤ h2 ∧
      (∀ x ∈ recs, r ≤ x.ref_idx ∧ x.ref_idx < r2 ∧
        x.ref_idx < ctx.transcript_words.length ∨
        x = nullRecord r ∧ r2 = r + 1) ∧
      List.Pairwise (fun x y => x.ref_idx < y.ref_idx) recs ∧
      List.Pairwise (· < ·) (recs.filterMap (fun x => x.hyp_idx)) ∧
      ((∀ w ∈ ctx.whisper_words, w.toList ≠ [] ∧
          ∀ ch ∈ w.toList, ch.isWhitespace = false) →
        ∀ v ∈ recs.filterMap (fun x => x.hyp_idx), h ≤ v ∧ v < h2) := by
  simp only [alignStep] at hstep
  split at hstep
  · -- pre-anchor skip: no records
    simp only [Option.some.injEq, Prod.mk.injEq] at hstep
    obtain ⟨rfl, rfl, rfl, rfl⟩ := hstep
    refine ⟨by omega, fun _ => by omega, le_refl h, ?_, by simp, by simp,
      ?_⟩
    · intro x hx; cases hx
    · intro _ v hv; cases hv
  · rcases hexp : expandLoop ctx
        (pyJoin ((ctx.transcript_words.drop r).take ctx.seq_len)) h
        (ctx.max_window + 1)
        (min (h + ctx.initial_window) ctx.whisper_words.length)
      with _ | cands
    · rw [hexp] at hstep; cases hstep
    · rw [hexp] at hstep
      cases cands with
      | nil =>
        simp only [Option.some.injEq, Prod.mk.injEq] at hstep
        obtain ⟨rfl, rfl, rfl, rfl⟩ := hstep
        refine ⟨by omega, fun _ => by omega, le_refl h, ?_, by simp, ?_, ?_⟩
        · intro x hx
          rcases List.mem_singleton.mp hx with rfl
          exact Or.inr ⟨rfl, rfl⟩
        · show List.Pairwise (· < ·) ([nullRecord r].filterMap _)
          simp [nullRecord]
        · intro _ v hv
          simp [nullRecord] at hv
      | cons c cs =>
        simp only [Option.some.injEq, Prod.mk.injEq] at hstep
        obtain ⟨rfl, rfl, rfl, rfl⟩ := hstep
        have hbm : pyMaxCand c cs ∈ c :: cs := pyMaxCand_mem cs c
        obtain ⟨hb1, hb2, hb3⟩ := expandLoop_mem ctx _ h _ _
          (min_le_right _ _) _ hexp (pyMaxCand c cs) hbm
        refine ⟨by omega, fun hseq => by omega, by omega, ?_,
          matchRecords_pairwise_ref ctx r (pyMaxCand c cs),
          matchRecords_pairwise_hyp ctx r (pyMaxCand c cs), ?_⟩
        · intro x hx
          obtain ⟨i, hi1, hi2, hi3, hi4, hi5⟩ :=
            matchRecords_mem ctx r (pyMaxCand c cs) x hx
          exact Or.inl ⟨by omega, by omega, by omega⟩
        · intro hwords v hv
          obtain ⟨x, hx, hxv⟩ := List.mem_filterMap.mp hv
          obtain ⟨i, hi1, hi2, hi3, hi4, hi5⟩ :=
            matchRecords_mem ctx r (pyMaxCand c cs) x hx
          rw [hi5] at hxv
          cases hxv
          have hwc : (pyMaxCand c cs).2.2 =
              ((ctx.whisper_words.drop (pyMaxCand c cs).1).take
                ctx.seq_len).length := by
            rw [hb3]
            refine pyWordCount_pyJoin _ ?_
            intro w hw
            exact hwords w (List.mem_of_mem_drop (List.mem_of_mem_take hw))
          rw [List.length_take, List.length_drop] at hwc
          constructor
          · omega
          · have : i < min ctx.seq_len
                (ctx.whisper_words.length - (pyMaxCand c cs).1) := by omega
            omega

theorem alignStep_isSome (ctx : AlignCtx) (r h : Nat) (anchor : Bool) :
    (alignStep ctx r h anchor).isSome := by
  simp only [alignStep]
  split
  · rfl
  · have hs := expandLoop_isSome ctx
      (pyJoin ((ctx.transcript_words.drop r).take ctx.seq_len)) h
      (ctx.max_window + 1)
      (min (h + ctx.initial_window) ctx.whisper_words.length) (by omega)
    rcases hexp : expandLoop ctx
        (pyJoin ((ctx.transcript_words.drop r).take ctx.seq_len)) h
        (ctx.max_window + 1)
        (min (h + ctx.initial_window) ctx.whisper_words.length)
      with _ | cands
    · rw [hexp] at hs; cases hs
    · cases cands <;> rfl

theorem alignLoop_isSome (ctx : AlignCtx) (hseq : 1 ≤ ctx.seq_len) :
    ∀ (fuel r h : Nat) (anchor : Bool) (acc : List AlignmentRecord),
      ctx.transcript_words.length - r < fuel →
      (alignLoop ctx fuel r h anchor acc).isSome := by
  intro fuel
  induction fuel with
  | zero => intro r h anchor acc hf; omega
  | succ n ih =>
    intro r h anchor acc hf
    simp only [alignLoop]
    split
    · rename_i hr
      rcases hstep : alignStep ctx r h anchor with _ | tuple
      · have := alignStep_isSome ctx r h anchor
        rw [hstep] at this; cases this
      · obtain ⟨r2, h2, anchor2, recs⟩ := tuple
        have hs := alignStep_spec ctx r h anchor r2 h2 anchor2 recs hstep
        have := hs.2.1 hseq
        exact ih r2 h2 anchor2 (acc ++ recs) (by omega)
    · rfl

theorem alignLoop_refs (ctx : AlignCtx) :
    ∀ (fuel r h : Nat) (anchor : Bool) (acc out : List AlignmentRecord),
      alignLoop ctx fuel r h anchor acc = some out →
      (∀ x ∈ acc, x.ref_idx < r ∧
        x.ref_idx < ctx.transcript_words.length) →
      List.Pairwise (fun x y => x.ref_idx < y.ref_idx) acc →
      List.Pairwise (fun x y => x.ref_idx < y.ref_idx) out ∧
        ∀ x ∈ out, x.ref_idx < ctx.transcript_words.length := by
  intro fuel
  induction fuel with
  | zero => intro r h anchor acc out hl; cases hl
  | succ n ih =>
    intro r h anchor acc out hl hinv hpair
    simp only [alignLoop] at hl
    split at hl
    · rename_i hr
      rcases hstep : alignStep ctx r h anchor with _ | tuple
      · rw [hstep] at hl; cases hl
      · obtain ⟨r2, h2, anchor2, recs⟩ := tuple
        rw [hstep] at hl
        have hs := alignStep_spec ctx r h anchor r2 h2 anchor2 recs hstep
        have hrecs : ∀ x ∈ recs, r ≤ x.ref_idx ∧ x.ref_idx < r2 ∧
            x.ref_idx < ctx.transcript_words.length := by
          intro x hx
          rcases hs.2.2.2.1 x hx with hgood | ⟨rfl, hr2⟩
          · exact hgood
          · simp only [nullRecord]
            exact ⟨le_refl r, by omega, hr⟩
        refine ih r2 h2 anchor2 (acc ++ recs) out hl ?_ ?_
        · intro x hx
          rcases List.mem_append.mp hx with hxa | hxr
          · have ha := hinv x hxa
            have hb := hs.1
            exact ⟨by omega, ha.2⟩
          · have := hrecs x hxr
            exact ⟨this.2.1, this.2.2⟩
        · refine List.pairwise_append.mpr ⟨hpair, hs.2.2.2.2.1, ?_⟩
          intro a ha b hb
          have h1 := hinv a ha
          have h2 := hrecs b hb
          omega
    · cases hl
      exact ⟨hpair, fun x hx => (hinv x hx).2⟩

theorem pairwise_lt_bound_length (l : List Nat) (N : Nat)
    (hp : List.Pairwise (· < ·) l) (hb : ∀ x ∈ l, x < N) :
    l.length ≤ N := by
  have hnd : l.Nodup := hp.imp (fun hxy => Nat.ne_of_lt hxy)
  have h1 : l.toFinset.card = l.length := List.toFinset_card_of_nodup hnd
  have h2 : l.toFinset ⊆ Finset.range N := by
    intro x hx
    rw [Finset.mem_range]
    exact hb x (List.mem_toFinset.mp hx)
  have h3 := Finset.card_le_card h2
  rw [h1, Finset.card_range] at h3
  exact h3

theorem alignLoop_hyps (ctx : AlignCtx)
    (hwords : ∀ w ∈ ctx.whisper_words, w.toList ≠ [] ∧
      ∀ ch ∈ w.toList, ch.isWhitespace = false) :
    ∀ (fuel r h : Nat) (anchor : Bool) (acc out : List AlignmentRecord),
      alignLoop ctx fuel r h anchor acc = some out →
      (∀ v ∈ acc.filterMap (fun x => x.hyp_idx), v < h) →
      List.Pairwise (· < ·) (acc.filterMap (fun x => x.hyp_idx)) →
      List.Pairwise (· < ·) (out.filterMap (fun x => x.hyp_idx)) := by
  intro fuel
  induction fuel with
  | zero => intro r h anchor acc out hl; cases hl
  | succ n ih =>
    intro r h anchor acc out hl hinv hpair
    simp only [alignLoop] at hl
    split at hl
    · rcases hstep : alignStep ctx r h anchor with _ | tuple
      · rw [hstep] at hl; cases hl
      · obtain ⟨r2, h2, anchor2, recs⟩ := tuple
        rw [hstep] at hl
        have hs := alignStep_spec ctx r h anchor r2 h2 anchor2 recs hstep
        have hrecs := hs.2.2.2.2.2.2 hwords
        refine ih r2 h2 anchor2 (acc ++ recs) out hl ?_ ?_
        · intro v hv
          rw [List.filterMap_append] at hv
          rcases List.mem_append.mp hv with hva | hvr
          · have := hinv v hva
            have := hs.2.2.1
            omega
          · exact (hrecs v hvr).2
        · rw [List.filterMap_append]
          refine List.pairwise_append.mpr
            ⟨hpair, hs.2.2.2.2.2.1, ?_⟩
          intro a ha b hb
          have h1 := hinv a ha
          have h2 := (hrecs b hb).1
          have := hs.2.2.1
          omega
    · cases hl
      exact hpair

/-- C1: corrected.  `align_transcript_to_whisper` does NOT emit exactly
one record per reference word (see `C1_counterexample`: a pre-anchor
skip consumes a word silently).  What does hold: the records' ref_idx
values are strictly increasing, each is a valid reference index, and
consequently there is at most one record per reference word, so the
output length never exceeds the reference length. -/
theorem C1_ref_indices_strictly_increasing (ctx : AlignCtx)
    (out : List AlignmentRecord)
    (hout : align_transcript_to_whisper ctx = some out) :
    List.Pairwise (fun x y => x.ref_idx < y.ref_idx) out ∧
      (∀ x ∈ out, x.ref_idx < ctx.transcript_words.length) ∧
      out.length ≤ ctx.transcript_words.length := by
  have h := alignLoop_refs ctx (ctx.transcript_words.length + 1) 0 0 false
    [] out hout (by intro x hx; cases hx) List.Pairwise.nil
  refine ⟨h.1, h.2, ?_⟩
  have hp : List.Pairwise (· < ·) (out.map (fun x => x.ref_idx)) :=
    List.pairwise_map.mpr h.1
  have hb : ∀ v ∈ out.map (fun x => x.ref_idx),
      v < ctx.transcript_words.length := by
    intro v hv
    obtain ⟨x, hx, rfl⟩ := List.mem_map.mp hv
    exact h.2 x hx
  have hlen := pairwise_lt_bound_length _ _ hp hb
  rw [List.length_map] at hlen
  exact hlen

theorem C1_witness :
    align_transcript_to_whisper ctxW = some ctxWOut ∧
      (List.Pairwise (fun x y => x.ref_idx < y.ref_idx) ctxWOut ∧
        (∀ x ∈ ctxWOut, x.ref_idx < ctxW.transcript_words.length) ∧
        ctxWOut.length ≤ ctxW.transcript_words.length) :=
  ⟨by with_unfolding_all decide,
    C1_ref_indices_strictly_increasing ctxW ctxWOut
      (by with_unfolding_all decide)⟩

/-- C6: corrected.  Monotonicity of the matched hypothesis indices
fails for hypothesis word lists containing blank words (see
`C6_counterexample`), because a matched window of blank words joins to
a string with fewer split-words than windows, leaving the hypothesis
cursor behind the emitted records.  When every hypothesis word is
nonempty and whitespace-free, the matched `hyp_idx` values across the
whole output are non-decreasing (indeed strictly increasing), and
failed matches leave the cursor unchanged. -/
theorem C6_matched_hyp_monotone (ctx : AlignCtx)
    (hwords : ∀ w ∈ ctx.whisper_words, w.toList ≠ [] ∧
      ∀ ch ∈ w.toList, ch.isWhitespace = false)
    (out : List AlignmentRecord)
    (hout : align_transcript_to_whisper ctx = some out) :
    List.Pairwise (· ≤ ·) (out.filterMap (fun x => x.hyp_idx)) := by
  have h := alignLoop_hyps ctx hwords (ctx.transcript_words.length + 1)
    0 0 false [] out hout (by intro v hv; cases hv) List.Pairwise.nil
  exact h.imp (fun hxy => Nat.le_of_lt hxy)

theorem C6_witness :
    (∀ w ∈ ctxW.whisper_words, w.toList ≠ [] ∧
      ∀ ch ∈ w.toList, ch.isWhitespace = false) ∧
      align_transcript_to_whisper ctxW = some ctxWOut ∧
      List.Pairwise (· ≤ ·)
        (ctxWOut.filterMap (fun x => x.hyp_idx)) :=
  ⟨by decide, by with_unfolding_all decide,
    C6_matched_hyp_monotone ctxW (by decide) ctxWOut
      (by with_unfolding_all decide)⟩

/-- C10: confirmed.  For `seq_len ≥ 1` the aligner terminates: the
reference cursor strictly increases every outer iteration (by 1 on a
pre-anchor skip or a failed match, by `seq_len` on a match), and the
window-expansion loop is bounded by `max_window` and the hypothesis
length, so the fuelled embedding succeeds with the fuel
`len_ref + 1`. -/
theorem C10_alignment_terminates (ctx : AlignCtx)
    (hseq : 1 ≤ ctx.seq_len) :
    (align_transcript_to_whisper ctx).isSome := by
  unfold align_transcript_to_whisper
  exact alignLoop_isSome ctx hseq (ctx.transcript_words.length + 1) 0 0
    false [] (by omega)

theorem C10_witness :
    1 ≤ ctxW.seq_len ∧ (align_transcript_to_whisper ctxW).isSome :=
  ⟨by decide, C10_alignment_terminates ctxW (by decide)⟩

end PodcastAlign
